import Mathlib

/-!
Verification of the selector knowledge base, resilient finder and AI-repair
pipeline of the ollama_ai_scrapper repository.

The Python code keeps its knowledge base as a raw JSON document
(`selector_kb.json`): a dict with keys `version`, `last_updated` and
`providers`, where `providers` maps provider name → field name → list of
strategy records, each record itself a raw JSON dict.  We embed JSON values
as the inductive type `JVal` (strings are kept as `List Char` so that the
serializer and parser can be reasoned about character by character), and the
knowledge base as the structure `KB` mirroring that document shape.
-/

/-- A JSON value, as produced by `json.load` / consumed by `json.dump`.
Numbers are restricted to integers: the knowledge-base document only ever
contains integer numbers (`success_count`). -/
inductive JVal where
  | jnull : JVal
  | jbool : Bool → JVal
  | jnum : Int → JVal
  | jstr : List Char → JVal
  | jarr : List JVal → JVal
  | jobj : List (List Char × JVal) → JVal

mutual

def JVal.beq : JVal → JVal → Bool
  | .jnull, .jnull => true
  | .jbool a, .jbool b => a == b
  | .jnum a, .jnum b => a == b
  | .jstr a, .jstr b => a == b
  | .jarr a, .jarr b => JVal.beqList a b
  | .jobj a, .jobj b => JVal.beqObj a b
  | _, _ => false

def JVal.beqList : List JVal → List JVal → Bool
  | [], [] => true
  | a :: as, b :: bs => JVal.beq a b && JVal.beqList as bs
  | _, _ => false

def JVal.beqObj : List (List Char × JVal) → List (List Char × JVal) → Bool
  | [], [] => true
  | (k, a) :: as, (k', b) :: bs => k == k' && JVal.beq a b && JVal.beqObj as bs
  | _, _ => false

end

mutual

theorem JVal.beq_iff : ∀ a b : JVal, JVal.beq a b = true ↔ a = b
  | .jnull, b => by cases b <;> simp [JVal.beq]
  | .jbool a, b => by cases b <;> simp [JVal.beq]
  | .jnum a, b => by cases b <;> simp [JVal.beq]
  | .jstr a, b => by cases b <;> simp [JVal.beq]
  | .jarr a, b => by
      cases b <;> simp [JVal.beq]
      exact JVal.beqList_iff a _
  | .jobj a, b => by
      cases b <;> simp [JVal.beq]
      exact JVal.beqObj_iff a _

theorem JVal.beqList_iff : ∀ a b : List JVal, JVal.beqList a b = true ↔ a = b
  | [], b => by cases b <;> simp [JVal.beqList]
  | x :: xs, b => by
      cases b with
      | nil => simp [JVal.beqList]
      | cons y ys =>
          simp [JVal.beqList, JVal.beq_iff x y, JVal.beqList_iff xs ys]

theorem JVal.beqObj_iff : ∀ a b : List (List Char × JVal),
    JVal.beqObj a b = true ↔ a = b
  | [], b => by cases b <;> simp [JVal.beqObj]
  | (k, x) :: xs, b => by
      cases b with
      | nil => simp [JVal.beqObj]
      | cons p ys =>
          obtain ⟨k', y⟩ := p
          simp [JVal.beqObj, JVal.beq_iff x y, JVal.beqObj_iff xs ys,
            and_assoc]

end

instance : DecidableEq JVal := fun a b =>
  decidable_of_iff (JVal.beq a b = true) (JVal.beq_iff a b)

instance : BEq JVal := ⟨JVal.beq⟩

instance : LawfulBEq JVal where
  eq_of_beq h := (JVal.beq_iff _ _).mp h
  rfl := (JVal.beq_iff _ _).mpr rfl

instance : Inhabited JVal := ⟨JVal.jnull⟩

/-- Shorthand: the character list of a string literal. -/
def cs (s : String) : List Char := s.data

/-- The double-quote character. -/
def qchar : Char := Char.ofNat 34
/-- The backslash character. -/
def bslash : Char := Char.ofNat 92
/-- The opening-brace character. -/
def obrace : Char := Char.ofNat 123
/-- The closing-brace character. -/
def cbrace : Char := Char.ofNat 125
/-- The backtick character. -/
def btick : Char := Char.ofNat 96

/-- Python dict update `d[k] = v`: replaces the value at an existing key in
place, appends a fresh key at the end (Python dicts preserve insertion
order). -/
def objSet (kvs : List (List Char × JVal)) (k : List Char) (v : JVal) :
    List (List Char × JVal) :=
  match kvs with
  | [] => [(k, v)]
  | (k', v') :: rest =>
      if k' = k then (k', v) :: rest else (k', v') :: objSet rest k v

/-- Association-list update used to model nested Python dicts: if the key is
present, transform its value in place; otherwise append `(k, g dflt)` (the
code pattern `if k not in d: d[k] = dflt` followed by an update of `d[k]`). -/
def upsert {α : Type} (m : List (List Char × α)) (k : List Char) (dflt : α)
    (g : α → α) : List (List Char × α) :=
  match m with
  | [] => [(k, g dflt)]
  | (k', v) :: rest =>
      if k' = k then (k', g v) :: rest else (k', v) :: upsert rest k dflt g

/-- Association-list map-at-key: transform the value at `k` when present,
leave the list unchanged otherwise.  Models an in-place mutation of the
object stored under an existing key (Python aliasing: mutating the list
returned by `d[k]` mutates `d`). -/
def mapAt {α : Type} (m : List (List Char × α)) (k : List Char) (g : α → α) :
    List (List Char × α) :=
  match m with
  | [] => []
  | (k', v) :: rest =>
      if k' = k then (k', g v) :: rest else (k', v) :: mapAt rest k g

/-- The knowledge-base document (`selector_kb.py`, default structure lines
54–127 and the shape maintained by every mutator): `version`,
`last_updated`, and `providers` mapping provider → field → ordered list of
strategy records (each record a raw JSON dict). -/
structure KB where
  version : List Char
  last_updated : List Char
  providers : List (List Char × List (List Char × List JVal))
deriving DecidableEq

/-- `SelectorKB.get_strategies`: `self.kb.get("providers", {}).get(provider,
{}).get(field, [])` — empty list for unknown keys, never an error. -/
def getStrategies (kb : KB) (p f : List Char) : List JVal :=
  (((kb.providers.lookup p).getD []).lookup f).getD []

/-- Python `list.insert(pos, x)` for a non-negative position: inserts before
index `pos`, appends when `pos` is past the end. -/
def pyInsertAt (l : List JVal) (pos : Nat) (x : JVal) : List JVal :=
  if pos ≥ l.length then l ++ [x] else l.take pos ++ x :: l.drop pos

/-- The in-memory part of `SelectorKB.add_strategy`: create the missing
provider / field entries, then insert the strategy at `position`. -/
def addStrategyMem (kb : KB) (p f : List Char) (s : JVal) (pos : Nat) : KB :=
  let provs := upsert kb.providers p []
    (fun flds => upsert flds f [] (fun l => pyInsertAt l pos s))
  { kb with providers := provs }

/-- Replace the strategy list stored at `(p, f)` when that path exists; a
missing path is left untouched.  Models in-place mutation of the list
returned by `get_strategies` (the list object is aliased inside the KB). -/
def setStrategies (kb : KB) (p f : List Char) (l : List JVal) : KB :=
  let provs := mapAt kb.providers p (fun flds => mapAt flds f (fun _ => l))
  { kb with providers := provs }

/-- Environment of external effects consumed by the core: the automation
capability (`_apply_strategy` realizing a strategy into a locator handle,
`_validate_locator` checking presence), the durable store (`saveOk`: does
writing `selector_kb.json` succeed), the clock, and the Ollama service
(availability probe result; HTTP outcome of the generate call as
`none` = request raised, `some (status, body)` otherwise). -/
structure Env where
  realize : JVal → Option Nat
  validate : Nat → Bool
  saveOk : Bool
  now : List Char
  ollamaAvail : Bool
  ollamaHTTP : Option (Nat × List Char)

/-- `SelectorKB.save_kb`: stamps `last_updated`, then writes the document;
the stamp is applied before the write, so it survives even a failing write.
Returns the updated in-memory KB and whether the write raised. -/
def saveKB (env : Env) (kb : KB) : KB × Bool :=
  ({ kb with last_updated := env.now }, !env.saveOk)

/-- `SelectorKB.add_strategy`: in-memory insert followed by `save_kb`.
Returns the updated KB and whether saving raised. -/
def addStrategy (env : Env) (kb : KB) (p f : List Char) (s : JVal)
    (pos : Nat) : KB × Bool :=
  saveKB env (addStrategyMem kb p f s pos)

/-- `SelectorKB.promote_strategy`: for an in-range index, `pop` the record
and re-`insert` it at the front, then persist; out-of-range indices are a
complete no-op (no save either).  Returns the KB and whether saving
raised. -/
def promoteStrategy (env : Env) (kb : KB) (p f : List Char) (i : Nat) :
    KB × Bool :=
  let l := getStrategies kb p f
  if h : i < l.length then
    saveKB env (setStrategies kb p f (l.get ⟨i, h⟩ :: l.eraseIdx i))
  else (kb, false)

/-- Python `x + 1` on a JSON value: defined for numbers (and booleans, which
are integers in Python); anything else raises `TypeError`. -/
def pyAddOne (v : JVal) : Option JVal :=
  match v with
  | JVal.jnum n => some (JVal.jnum (n + 1))
  | JVal.jbool b => some (JVal.jnum ((if b then (1 : Int) else 0) + 1))
  | _ => none

/-- `SelectorKB.record_success`: for an in-range index, default a missing
`success_count` to 0, increment it, refresh `last_success`, persist;
out-of-range indices are a silent no-op.  The boolean result records
whether the call raised — either a `TypeError` from `+= 1` on a
non-numeric stored count (or a non-dict record), which happens before any
mutation, or a write failure in `save_kb`, which happens after the
in-memory mutation. -/
def recordSuccess (env : Env) (kb : KB) (p f : List Char) (i : Nat) :
    KB × Bool :=
  let l := getStrategies kb p f
  if h : i < l.length then
    match l.get ⟨i, h⟩ with
    | JVal.jobj kvs =>
        let newCount : Option JVal :=
          match kvs.lookup (cs "success_count") with
          | none => some (JVal.jnum 1)
          | some v => pyAddOne v
        match newCount with
        | none => (kb, true)
        | some c =>
            let kvs' := objSet (objSet kvs (cs "success_count") c)
              (cs "last_success") (JVal.jstr env.now)
            saveKB env (setStrategies kb p f (l.set i (JVal.jobj kvs')))
    | _ => (kb, true)
  else (kb, false)

/-- Events recording every invocation of an external capability during a
resolution or repair run: realizing / validating a strategy (with the
strategy index for resolver runs), the learning write, the Ollama
availability probe and generate call, and a durable-store write attempt. -/
inductive Ev where
  | evRealize : Nat → Ev
  | evValidate : Nat → Ev
  | evRecord : Nat → Ev
  | evApply : Ev
  | evValid : Ev
  | evProbe : Ev
  | evOllama : Ev
  | evSaveTry : Ev
deriving DecidableEq

/-- The loop body of `ResilientFinder.find_with_strategies` (lines 26–36):
`i` is the enumeration index, `rest` the remaining snapshot of the strategy
list.  A strategy that fails to realize (returns `None` or raises), fails
validation, or whose `record_success` raises (the per-strategy
`except Exception: continue`) is skipped; the first strategy that realizes,
validates and records without raising is returned with its index.  The
threaded `kb` reflects that `record_success` mutates the shared dict even
when its save later raises. -/
def findLoop (env : Env) (p f : List Char) :
    Nat → List JVal → KB → (Option Nat × Int) × KB × List Ev
  | _, [], kb => ((none, -1), kb, [])
  | i, s :: rest, kb =>
    match env.realize s with
    | none =>
        let r := findLoop env p f (i + 1) rest kb
        (r.1, r.2.1, Ev.evRealize i :: r.2.2)
    | some h =>
        if env.validate h then
          let rs := recordSuccess env kb p f i
          if rs.2 then
            let r := findLoop env p f (i + 1) rest rs.1
            (r.1, r.2.1,
              Ev.evRealize i :: Ev.evValidate i :: Ev.evRecord i :: r.2.2)
          else
            ((some h, Int.ofNat i), rs.1,
              [Ev.evRealize i, Ev.evValidate i, Ev.evRecord i])
        else
          let r := findLoop env p f (i + 1) rest kb
          (r.1, r.2.1, Ev.evRealize i :: Ev.evValidate i :: r.2.2)

/-- `ResilientFinder.find_with_strategies`: fetch the ranked strategies and
try them in order; `(None, -1)` when the list is empty or every strategy
fails. -/
def findWithStrategies (env : Env) (kb : KB) (p f : List Char) :
    (Option Nat × Int) × KB × List Ev :=
  findLoop env p f 0 (getStrategies kb p f) kb

/-- ASCII lower-casing, modelling `str.lower()` on the ASCII text these
functions receive. -/
def lowerL (l : List Char) : List Char :=
  l.map (fun c => if 'A' ≤ c ∧ c ≤ 'Z' then Char.ofNat (c.toNat + 32) else c)

/-- Does `hay` start with `needle`? -/
def startsWithL : List Char → List Char → Bool
  | [], _ => true
  | _ :: _, [] => false
  | a :: as, b :: bs => a == b && startsWithL as bs

/-- Python `needle in hay` on strings: substring containment (the needle
starts at some position of the haystack). -/
def containsL (needle : List Char) : List Char → Bool
  | [] => needle.isEmpty
  | c :: t => startsWithL needle (c :: t) || containsL needle t

/-- Split at the first occurrence of character `c`: `some (before, after)`
with `c` itself dropped, `none` when `c` does not occur. -/
def takeTo (c : Char) : List Char → Option (List Char × List Char)
  | [] => none
  | x :: rest =>
      if x = c then some ([], rest)
      else (takeTo c rest).map (fun pr => (x :: pr.1, pr.2))

/-- Scanner for the regex `PAT([^"]*)"` where `PAT` ends in a double quote
(used as `data-test="([^"]*)"` and `aria-label="([^"]*)"`): at each
position, if the literal pattern matches, capture up to the next double
quote and resume after it (non-overlapping, leftmost, like `re.findall`);
otherwise advance one character. -/
def findCapturesAux (pat : List Char) : Nat → List Char → List (List Char)
  | 0, _ => []
  | fuel + 1, s =>
      if startsWithL pat s then
        match takeTo qchar (s.drop pat.length) with
        | some pr => pr.1 :: findCapturesAux pat fuel pr.2
        | none => []
      else
        match s with
        | [] => []
        | _ :: t => findCapturesAux pat fuel t

/-- `re.findall` for the quoted-attribute capture patterns. -/
def findCaptures (pat s : List Char) : List (List Char) :=
  findCapturesAux pat (s.length + 1) s

/-- A `{"strategy": "css", "params": {"selector": sel}}` proposal dict. -/
def cssProp (sel : List Char) : JVal :=
  JVal.jobj [(cs "strategy", JVal.jstr (cs "css")),
    (cs "params", JVal.jobj [(cs "selector", JVal.jstr sel)])]

/-- The normalized field name `field.lower().replace('_', '')`. -/
def normField (field : List Char) : List Char :=
  (lowerL field).filter (fun c => c ≠ '_')

/-- `any(keyword in t.lower() for keyword in kws)`. -/
def kwAny (kws : List (List Char)) (t : List Char) : Bool :=
  kws.any (fun kw => containsL kw (lowerL t))

/-- The fixed pickup input proposals (`_ai_propose_strategy` lines
108–113). -/
def pickupProps : List JVal :=
  [cssProp (cs "input[placeholder*=\x27pickup\x27]"),
   cssProp (cs "input[placeholder*=\x27Pick-up\x27]"),
   cssProp (cs "input[name*=\x27pickup\x27]"),
   cssProp (cs "input[id*=\x27pickup\x27]")]

/-- The fixed dropoff input proposals (lines 114–120). -/
def dropoffProps : List JVal :=
  [cssProp (cs "input[placeholder*=\x27dropoff\x27]"),
   cssProp (cs "input[placeholder*=\x27Drop-off\x27]"),
   cssProp (cs "input[name*=\x27dropoff\x27]"),
   cssProp (cs "input[id*=\x27dropoff\x27]")]

/-- The fixed date input proposals (lines 121–126). -/
def dateProps : List JVal :=
  [cssProp (cs "input[type=\x27date\x27]"),
   cssProp (cs "input[placeholder*=\x27date\x27]"),
   cssProp (cs "input[name*=\x27date\x27]")]

/-- The fixed button proposals (lines 128–134). -/
def buttonProps : List JVal :=
  [cssProp (cs "button[type=\x27submit\x27]"),
   cssProp (cs "button:has-text(\x27Get\x27)"),
   cssProp (cs "button:has-text(\x27Search\x27)"),
   cssProp (cs "button:has-text(\x27Find\x27)")]

/-- Wrap a captured test id as the selector `[data-test='…']`. -/
def dataTestSel (tid : List Char) : List Char :=
  cs "[data-test=\x27" ++ tid ++ cs "\x27]"

/-- Wrap a captured aria label as the selector `[aria-label='…']`. -/
def ariaSel (lab : List Char) : List Char :=
  cs "[aria-label=\x27" ++ lab ++ cs "\x27]"

/-- The full candidate list built by
`ResilientFinder._ai_propose_strategy` (lines 96–149): input-keyed
proposals when the snapshot mentions `input`, button proposals when it
mentions `button`, then `data-test` and `aria-label` proposals for
attribute values passing the keyword filters, in discovery order. -/
def aiProposals (field dom : List Char) (_failed : List JVal) : List JVal :=
  let fieldL := lowerL field
  let domL := lowerL dom
  let inputPart :=
    if containsL (cs "input") domL then
      if containsL (cs "pickup") fieldL || containsL (cs "pick-up") fieldL then
        pickupProps
      else if containsL (cs "dropoff") fieldL ||
          containsL (cs "drop-off") fieldL then
        dropoffProps
      else if containsL (cs "date") fieldL then dateProps
      else []
    else []
  let buttonPart := if containsL (cs "button") domL then buttonProps else []
  let testidPart :=
    (findCaptures (cs "data-test=\x22") dom).filterMap (fun tid =>
      if kwAny [normField field, cs "input", cs "button", cs "card"] tid then
        some (cssProp (dataTestSel tid))
      else none)
  let ariaPart :=
    (findCaptures (cs "aria-label=\x22") dom).filterMap (fun lab =>
      if kwAny [normField field, cs "pickup", cs "dropoff", cs "date"] lab
      then some (cssProp (ariaSel lab))
      else none)
  inputPart ++ buttonPart ++ testidPart ++ ariaPart

/-- `ResilientFinder._ai_propose_strategy`: the first proposal, if any. -/
def aiProposeStrategy (field dom : List Char) (failed : List JVal) :
    Option JVal :=
  (aiProposals field dom failed).head?

/-- A `{"strategy": "label", "params": {"text": t}}` record. -/
def labelProp (t : List Char) : JVal :=
  JVal.jobj [(cs "strategy", JVal.jstr (cs "label")),
    (cs "params", JVal.jobj [(cs "text", JVal.jstr t)])]

/-- A `{"strategy": "placeholder", "params": {"text": t}}` record. -/
def placeholderProp (t : List Char) : JVal :=
  JVal.jobj [(cs "strategy", JVal.jstr (cs "placeholder")),
    (cs "params", JVal.jobj [(cs "text", JVal.jstr t)])]

/-- A `{"strategy": "role", "params": {"name": n}}` record (the seeded
defaults carry only `name`, no `role` key — exactly as in the source). -/
def roleProp (n : List Char) : JVal :=
  JVal.jobj [(cs "strategy", JVal.jstr (cs "role")),
    (cs "params", JVal.jobj [(cs "name", JVal.jstr n)])]

/-- The seeded default knowledge base built by `SelectorKB._load_kb`
(lines 53–127) when no file exists: none of its records carries a
`success_count` or `last_success` key. -/
def defaultKB (now : List Char) : KB :=
  { version := cs "1.0"
    last_updated := now
    providers := [(cs "penske",
      [(cs "pickup_input",
        [labelProp (cs "Pick-up Location"),
         placeholderProp (cs "Pick-up"),
         cssProp (cs "input[placeholder*=\x27pickup\x27 i]"),
         cssProp (cs "input[placeholder*=\x27Pick-up\x27 i]"),
         cssProp (cs "input[name*=\x27pickup\x27 i]"),
         cssProp (cs "input[id*=\x27pickup\x27 i]"),
         cssProp (cs "input[placeholder*=\x27location\x27 i]:first-of-type"),
         cssProp (cs "input[type=\x27text\x27]:first-of-type"),
         cssProp (cs "[data-test=pickup] input")]),
       (cs "dropoff_input",
        [labelProp (cs "Drop-off Location"),
         placeholderProp (cs "Drop-off"),
         cssProp (cs "input[placeholder*=\x27dropoff\x27 i]"),
         cssProp (cs "input[placeholder*=\x27Drop-off\x27 i]"),
         cssProp (cs "input[name*=\x27dropoff\x27 i]"),
         cssProp (cs "input[id*=\x27dropoff\x27 i]"),
         cssProp (cs "input[placeholder*=\x27location\x27 i]:nth-of-type(2)"),
         cssProp (cs "input[type=\x27text\x27]:nth-of-type(2)"),
         cssProp (cs "[data-test=dropoff] input")]),
       (cs "pickup_date",
        [labelProp (cs "Pick-up Date"),
         cssProp (cs "input[type=\x27date\x27]"),
         cssProp (cs "[data-test=pickup-date] input"),
         cssProp (cs "input[placeholder*=\x27date\x27]")]),
       (cs "dropoff_date",
        [labelProp (cs "Drop-off Date"),
         cssProp (cs "input[type=\x27date\x27]"),
         cssProp (cs "[data-test=dropoff-date] input"),
         cssProp (cs "input[placeholder*=\x27date\x27]")]),
       (cs "submit_button",
        [roleProp (cs "Get Rates"),
         roleProp (cs "Search"),
         roleProp (cs "Find"),
         cssProp (cs "button[type=\x27submit\x27]"),
         cssProp (cs "[data-test=submit]")]),
       (cs "result_cards",
        [cssProp (cs "[data-test=rate-card]"),
         cssProp (cs ".rate-card"),
         cssProp (cs "article"),
         cssProp (cs ".quote-card"),
         cssProp (cs "[class*=\x27rate\x27]")]),
       (cs "price_element",
        [cssProp (cs ".price"),
         cssProp (cs ".total"),
         cssProp (cs "[data-test=total-price]"),
         cssProp (cs "[class*=\x27price\x27]"),
         cssProp (cs "[class*=\x27total\x27]")]),
       (cs "truck_title",
        [cssProp (cs "h3"),
         cssProp (cs "h2"),
         cssProp (cs "[data-test=truck-title]"),
         cssProp (cs "[class*=\x27title\x27]")]),
       (cs "miles_element",
        [cssProp (cs ".miles"),
         cssProp (cs "[data-test=included-miles]"),
         cssProp (cs "[class*=\x27mile\x27]")])])] }

/-- JSON whitespace (also Python's `\s` class and `str.strip` set, restricted
to the characters that occur in this code's data). -/
def isWsJ (c : Char) : Bool :=
  c = ' ' || c = '\t' || c = '\n' || c = '\r' || c = Char.ofNat 12 ||
    c = Char.ofNat 11

/-- Drop leading JSON whitespace. -/
def skipWs (l : List Char) : List Char := l.dropWhile isWsJ

/-- Python `str.strip()`: remove leading and trailing whitespace. -/
def pyStrip (l : List Char) : List Char :=
  ((l.dropWhile isWsJ).reverse.dropWhile isWsJ).reverse

/-- A hexadecimal digit character (lowercase). -/
def hexDig (d : Nat) : Char :=
  if d < 10 then Char.ofNat (48 + d) else Char.ofNat (87 + d)

/-- Serialize one string character the way `json.dump` does: escape the
quote, the backslash, the common control shorthands, and other control
characters as `\u00XX`. -/
def escChar (c : Char) : List Char :=
  if c = qchar then [bslash, qchar]
  else if c = bslash then [bslash, bslash]
  else if c = '\n' then [bslash, 'n']
  else if c = '\t' then [bslash, 't']
  else if c = '\r' then [bslash, 'r']
  else if c.toNat < 32 then
    [bslash, 'u', '0', '0', hexDig (c.toNat / 16), hexDig (c.toNat % 16)]
  else [c]

/-- Serialize a string body. -/
def escStr : List Char → List Char
  | [] => []
  | c :: t => escChar c ++ escStr t

/-- The decimal digits of a natural number. -/
def natChars (n : Nat) : List Char :=
  if h : n < 10 then [Char.ofNat (48 + n)]
  else natChars (n / 10) ++ [Char.ofNat (48 + n % 10)]
termination_by n
decreasing_by exact Nat.div_lt_self (by omega) (by omega)

/-- The decimal representation of an integer. -/
def intChars (n : Int) : List Char :=
  if n < 0 then '-' :: natChars n.natAbs else natChars n.toNat

mutual

/-- `json.dump` of a value (compact form; JSON whitespace is semantically
inert and the parser skips it wherever it may occur). -/
def printJ : JVal → List Char
  | .jnull => cs "null"
  | .jbool true => cs "true"
  | .jbool false => cs "false"
  | .jnum n => intChars n
  | .jstr s => qchar :: escStr s ++ [qchar]
  | .jarr xs => '[' :: printArr xs ++ [']']
  | .jobj kvs => obrace :: printObj kvs ++ [cbrace]

/-- Comma-separated serialization of array elements. -/
def printArr : List JVal → List Char
  | [] => []
  | [x] => printJ x
  | x :: y :: r => printJ x ++ ',' :: printArr (y :: r)

/-- Comma-separated serialization of object members. -/
def printObj : List (List Char × JVal) → List Char
  | [] => []
  | [(k, v)] => qchar :: escStr k ++ qchar :: ':' :: printJ v
  | (k, v) :: m :: r =>
      (qchar :: escStr k ++ qchar :: ':' :: printJ v) ++ ',' :: printObj (m :: r)

end

/-- Read back one escaped character. -/
def unescChar (c : Char) : Option Char :=
  if c = qchar then some qchar
  else if c = bslash then some bslash
  else if c = '/' then some '/'
  else if c = 'n' then some '\n'
  else if c = 't' then some '\t'
  else if c = 'r' then some '\r'
  else if c = 'b' then some (Char.ofNat 8)
  else if c = 'f' then some (Char.ofNat 12)
  else none

/-- Parse a string body up to its closing quote. -/
def parseStrBody : List Char → Option (List Char × List Char)
  | [] => none
  | c :: rest =>
      if c = qchar then some ([], rest)
      else if c = bslash then
        match rest with
        | [] => none
        | e :: r2 =>
            match unescChar e with
            | none => none
            | some u => (parseStrBody r2).map (fun pr => (u :: pr.1, pr.2))
      else (parseStrBody rest).map (fun pr => (c :: pr.1, pr.2))

/-- Decimal digit test. -/
def isDigitC (c : Char) : Bool := '0' ≤ c && c ≤ '9'

/-- Value of a digit string. -/
def digitsVal (l : List Char) : Nat :=
  l.foldl (fun a c => a * 10 + (c.toNat - 48)) 0

/-- Parse an integer literal (optional minus sign, then digits). -/
def parseNum (s : List Char) : Option (JVal × List Char) :=
  match s with
  | [] => none
  | c :: rest =>
      if c = '-' then
        let ds := rest.takeWhile isDigitC
        if ds.isEmpty then none
        else some (JVal.jnum (-(digitsVal ds : Int)), rest.dropWhile isDigitC)
      else
        let ds := s.takeWhile isDigitC
        if ds.isEmpty then none
        else some (JVal.jnum (digitsVal ds), s.dropWhile isDigitC)

mutual

/-- Fueled recursive-descent JSON parser: parse one value, returning it and
the unconsumed remainder. -/
def parseVal : Nat → List Char → Option (JVal × List Char)
  | 0, _ => none
  | fuel + 1, s =>
      match skipWs s with
      | [] => none
      | c :: rest =>
          if c = qchar then
            (parseStrBody rest).map (fun pr => (JVal.jstr pr.1, pr.2))
          else if c = '[' then
            match skipWs rest with
            | [] => none
            | c2 :: r2 =>
                if c2 = ']' then some (JVal.jarr [], r2)
                else
                  (parseElems fuel rest).map (fun pr => (JVal.jarr pr.1, pr.2))
          else if c = obrace then
            match skipWs rest with
            | [] => none
            | c2 :: r2 =>
                if c2 = cbrace then some (JVal.jobj [], r2)
                else
                  (parseMems fuel rest).map (fun pr => (JVal.jobj pr.1, pr.2))
          else if startsWithL (cs "null") (c :: rest) then
            some (JVal.jnull, (c :: rest).drop 4)
          else if startsWithL (cs "true") (c :: rest) then
            some (JVal.jbool true, (c :: rest).drop 4)
          else if startsWithL (cs "false") (c :: rest) then
            some (JVal.jbool false, (c :: rest).drop 5)
          else parseNum (c :: rest)

/-- Parse the (non-empty) element list of an array, consuming the closing
bracket. -/
def parseElems : Nat → List Char → Option (List JVal × List Char)
  | 0, _ => none
  | fuel + 1, s =>
      match parseVal fuel s with
      | none => none
      | some (v, r) =>
          match skipWs r with
          | ',' :: r2 => (parseElems fuel r2).map (fun pr => (v :: pr.1, pr.2))
          | ']' :: r2 => some ([v], r2)
          | _ => none

/-- Parse the (non-empty) member list of an object, consuming the closing
brace. -/
def parseMems : Nat → List Char →
    Option (List (List Char × JVal) × List Char)
  | 0, _ => none
  | fuel + 1, s =>
      match skipWs s with
      | [] => none
      | c :: rest =>
          if c = qchar then
            match parseStrBody rest with
            | none => none
            | some (k, r2) =>
                match skipWs r2 with
                | ':' :: r3 =>
                    match parseVal fuel r3 with
                    | none => none
                    | some (v, r4) =>
                        match skipWs r4 with
                        | ',' :: r5 =>
                            (parseMems fuel r5).map
                              (fun pr => ((k, v) :: pr.1, pr.2))
                        | c2 :: r5 =>
                            if c2 = cbrace then some ([(k, v)], r5) else none
                        | [] => none
                | _ => none
          else none

end

/-- `json.loads`: parse a complete document; trailing whitespace only. -/
def jsonParse (s : List Char) : Option JVal :=
  match parseVal (s.length + 1) s with
  | some (v, r) => if (skipWs r).isEmpty then some v else none
  | none => none

mutual

/-- Fuel sufficient for `parseVal` to parse the printed form of a value. -/
def jfuel : JVal → Nat
  | .jnull => 1
  | .jbool _ => 1
  | .jnum _ => 1
  | .jstr _ => 1
  | .jarr xs => 1 + jfuelElems xs
  | .jobj kvs => 1 + jfuelMems kvs

/-- Fuel for `parseElems`. -/
def jfuelElems : List JVal → Nat
  | [] => 0
  | x :: r => 1 + jfuel x + jfuelElems r

/-- Fuel for `parseMems`. -/
def jfuelMems : List (List Char × JVal) → Nat
  | [] => 0
  | (_, v) :: r => 1 + jfuel v + jfuelMems r

end

/-- A plain printable character: needs no escaping when serialized, and is
read back verbatim by the parser. -/
def okChar (c : Char) : Bool :=
  32 ≤ c.toNat && c.toNat ≤ 126 && c ≠ qchar && c ≠ bslash

mutual

/-- Well-formed value for the serialization round trip: every string is
made of plain printable characters. -/
def wfJ : JVal → Bool
  | .jnull => true
  | .jbool _ => true
  | .jnum _ => true
  | .jstr s => s.all okChar
  | .jarr xs => wfArr xs
  | .jobj kvs => wfMems kvs

/-- Well-formedness of array elements. -/
def wfArr : List JVal → Bool
  | [] => true
  | x :: r => wfJ x && wfArr r

/-- Well-formedness of object members. -/
def wfMems : List (List Char × JVal) → Bool
  | [] => true
  | (k, v) :: r => k.all okChar && wfJ v && wfMems r

end

/-- `m` occurs as a contiguous segment of `s`. -/
def SubSeg (m s : List Char) : Prop := ∃ a b, s = a ++ m ++ b

/-- The serialized knowledge-base document, in the `version` /
`last_updated` / `providers` shape that `SelectorKB` maintains. -/
def kbToJson (kb : KB) : JVal :=
  JVal.jobj [(cs "version", JVal.jstr kb.version),
    (cs "last_updated", JVal.jstr kb.last_updated),
    (cs "providers", JVal.jobj (kb.providers.map (fun pr =>
      (pr.1, JVal.jobj (pr.2.map (fun fl => (fl.1, JVal.jarr fl.2)))))))]

/-- The text `save_kb` writes: stamp `last_updated`, then dump the
document. -/
def saveText (env : Env) (kb : KB) : List Char :=
  printJ (kbToJson { kb with last_updated := env.now })

/-- The value `_load_kb` recovers from an existing file's text
(`json.load`). -/
def loadFromText (s : List Char) : Option JVal := jsonParse s

/-- Split at the first brace character (either kind), as the regex class
`[^{}]*` does. -/
def takeToBrace : List Char → Option (List Char × Char × List Char)
  | [] => none
  | x :: rest =>
      if x = obrace || x = cbrace then some ([], x, rest)
      else (takeToBrace rest).map (fun t => (x :: t.1, t.2.1, t.2.2))

/-- The quoted key `"strategy"` looked for by the first extraction
pattern. -/
def qstrategy : List Char := qchar :: cs "strategy" ++ [qchar]

/-- `re.findall` for the first extraction pattern: a brace pair with no
nested braces whose body mentions `"strategy"`; leftmost, non-overlapping. -/
def p1Aux : Nat → List Char → List (List Char)
  | 0, _ => []
  | _ + 1, [] => []
  | fuel + 1, c :: rest =>
      if c = obrace then
        match takeToBrace rest with
        | some (inner, b, rest2) =>
            if b = cbrace && containsL qstrategy inner then
              (obrace :: inner ++ [cbrace]) :: p1Aux fuel rest2
            else p1Aux fuel rest
        | none => p1Aux fuel rest
      else p1Aux fuel rest

/-- Matches of the first extraction pattern. -/
def p1Matches (s : List Char) : List (List Char) := p1Aux (s.length + 1) s

/-- `re.findall` for the second extraction pattern: an opening brace up to
the next closing brace. -/
def p2Aux : Nat → List Char → List (List Char)
  | 0, _ => []
  | _ + 1, [] => []
  | fuel + 1, c :: rest =>
      if c = obrace then
        match takeTo cbrace rest with
        | some pr => (obrace :: pr.1 ++ [cbrace]) :: p2Aux fuel pr.2
        | none => p2Aux fuel rest
      else p2Aux fuel rest

/-- Matches of the second extraction pattern. -/
def p2Matches (s : List Char) : List (List Char) := p2Aux (s.length + 1) s

/-- The lazy group closing of the fenced-code patterns: scan for the first
closing brace that is followed (after whitespace) by a closing fence;
return the group body and the text after the fence. -/
def lazyClose : Nat → List Char → Option (List Char × List Char)
  | 0, _ => none
  | _ + 1, [] => none
  | fuel + 1, c :: rest =>
      if c = cbrace && startsWithL (cs "```") (rest.dropWhile isWsJ) then
        some ([], (rest.dropWhile isWsJ).drop 3)
      else (lazyClose fuel rest).map (fun pr => (c :: pr.1, pr.2))

/-- `re.findall` for the fenced-code extraction patterns (` ```json … ``` `
and ` ``` … ``` `): the captured group is the brace-delimited body. -/
def fencedAux (openFence : List Char) : Nat → List Char → List (List Char)
  | 0, _ => []
  | _ + 1, [] => []
  | fuel + 1, c :: t =>
      if startsWithL openFence (c :: t) then
        match ((c :: t).drop openFence.length).dropWhile isWsJ with
        | x :: r2 =>
            if x = obrace then
              match lazyClose (r2.length + 1) r2 with
              | some (inner, rest3) =>
                  (obrace :: inner ++ [cbrace]) :: fencedAux openFence fuel rest3
              | none => fencedAux openFence fuel t
            else fencedAux openFence fuel t
        | [] => fencedAux openFence fuel t
      else fencedAux openFence fuel t

/-- Matches of the ` ```json … ``` ` pattern. -/
def p3Matches (s : List Char) : List (List Char) :=
  fencedAux (cs "```json") (s.length + 1) s

/-- Matches of the ` ``` … ``` ` pattern. -/
def p4Matches (s : List Char) : List (List Char) :=
  fencedAux (cs "```") (s.length + 1) s

/-- Python `k in v` on a parsed JSON value: key test for dicts, substring
test for strings, membership for lists; `TypeError` (`none`) otherwise. -/
def pyInJ (k : List Char) (v : JVal) : Option Bool :=
  match v with
  | .jobj kvs => some (kvs.lookup k).isSome
  | .jstr s => some (containsL k s)
  | .jarr xs => some (xs.contains (JVal.jstr k))
  | _ => none

/-- `"strategy" in v and "params" in v`, inside the surrounding
try-block: a `TypeError` is caught and treated as no-hit. -/
def stratKeysOk (v : JVal) : Bool :=
  (pyInJ (cs "strategy") v).getD false && (pyInJ (cs "params") v).getD false

/-- Scan pattern matches for the first one that parses to a value carrying
both a `strategy` and a `params` entry. -/
def firstStratHit : List (List Char) → Option JVal
  | [] => none
  | m :: rest =>
      match jsonParse m with
      | some v => if stratKeysOk v then some v else firstStratHit rest
      | none => firstStratHit rest

/-- The hard-coded strategy returned by the last-resort text heuristic of
`propose_strategy_with_ollama` (lines 104–108). -/
def ollamaFallbackStrat : JVal :=
  cssProp (cs "input[placeholder*=\x27location\x27 i]")

/-- The response-text heuristic applied when no JSON could be recovered:
if the text mentions both `input` and `placeholder` (case-insensitive),
return the hard-coded fallback strategy. -/
def textFallback (resp : List Char) : Option JVal :=
  if containsL (cs "input") (lowerL resp) &&
      containsL (cs "placeholder") (lowerL resp) then
    some ollamaFallbackStrat
  else none

/-- The whole response-processing chain of
`OllamaAIRepair.propose_strategy_with_ollama` (lines 71–108): the four
extraction patterns in order, then parsing the entire response, then the
text heuristic; `none` when all of them fail. -/
def extractStrategy (resp : List Char) : Option JVal :=
  match firstStratHit (p1Matches resp) with
  | some v => some v
  | none =>
      match firstStratHit (p2Matches resp) with
      | some v => some v
      | none =>
          match firstStratHit (p3Matches resp) with
          | some v => some v
          | none =>
              match firstStratHit (p4Matches resp) with
              | some v => some v
              | none =>
                  match jsonParse resp with
                  | some v =>
                      if stratKeysOk v then some v else textFallback resp
                  | none => textFallback resp

/-- `propose_strategy_with_ollama`: a raised request or a non-200 status
yields no proposal (the surrounding try swallows everything); a 200
response is stripped and fed through the extraction chain. -/
def proposeWithOllama (env : Env) (_field _dom : List Char)
    (_failed : List JVal) : Option JVal :=
  match env.ollamaHTTP with
  | none => none
  | some st => if st.1 = 200 then extractStrategy (pyStrip st.2) else none

/-- The candidate-selection prefix of `find_with_ai_repair` (lines 73–82):
Stage A first; only when it yields nothing is the availability probe made,
and only when the probe succeeds is the Ollama generate call issued.
Returns the chosen candidate and the external-service events. -/
def repairCandidate (env : Env) (field dom : List Char)
    (failed : List JVal) : Option JVal × List Ev :=
  match aiProposeStrategy field dom failed with
  | some s => (some s, [])
  | none =>
      if env.ollamaAvail then
        (proposeWithOllama env field dom failed, [Ev.evProbe, Ev.evOllama])
      else (none, [Ev.evProbe])

/-- `ResilientFinder.find_with_ai_repair` (lines 68–94): validate the
candidate exactly as the resolver does; on success commit it via
`add_strategy(position=0)` and return handle and strategy; on any failure
— including a raising `add_strategy` save, swallowed by the
`except Exception: pass` — return `(None, None)`. -/
def findWithAiRepair (env : Env) (kb : KB) (p f dom : List Char)
    (failed : List JVal) : (Option Nat × Option JVal) × KB × List Ev :=
  let c := repairCandidate env f dom failed
  match c.1 with
  | none => ((none, none), kb, c.2)
  | some s =>
      match env.realize s with
      | none => ((none, none), kb, c.2 ++ [Ev.evApply])
      | some h =>
          if env.validate h then
            let a := addStrategy env kb p f s 0
            if a.2 then
              ((none, none), a.1, c.2 ++ [Ev.evApply, Ev.evValid, Ev.evSaveTry])
            else
              ((some h, some s), a.1,
                c.2 ++ [Ev.evApply, Ev.evValid, Ev.evSaveTry])
          else ((none, none), kb, c.2 ++ [Ev.evApply, Ev.evValid])

/-- The events of one resolver attempt at index `i`: realize; validate when
realization produced a handle; the learning write when validation
succeeded. -/
def attemptEvs (env : Env) (i : Nat) (s : JVal) : List Ev :=
  match env.realize s with
  | none => [Ev.evRealize i]
  | some h =>
      if env.validate h then [Ev.evRealize i, Ev.evValidate i, Ev.evRecord i]
      else [Ev.evRealize i, Ev.evValidate i]

/-- The event trace of a run over strategies that all fail. -/
def failTrace (env : Env) : Nat → List JVal → List Ev
  | _, [] => []
  | i, s :: rest => attemptEvs env i s ++ failTrace env (i + 1) rest

/-- Does this strategy fail under `env` — no handle, or validation
negative? -/
def failsB (env : Env) (s : JVal) : Bool :=
  match env.realize s with
  | none => true
  | some h => !env.validate h

/-- Is this a record `record_success` can update without raising: a dict
whose `success_count`, if present, is a number (or a bool, an int in
Python)? -/
def recordOkB (s : JVal) : Bool :=
  match s with
  | .jobj kvs =>
      match kvs.lookup (cs "success_count") with
      | none => true
      | some (.jnum _) => true
      | some (.jbool _) => true
      | some _ => false
  | _ => false

/-- Does nothing follow, or at least no digit (so that a parsed number is
delimited)? -/
def restOkB : List Char → Bool
  | [] => true
  | c :: _ => !isDigitC c

/-- `record_success` called once per timestamp in `ts` (each call sees the
clock at that timestamp), threading the knowledge base. -/
def recordRepeat (env : Env) (kb : KB) (p f : List Char) (i : Nat) :
    List (List Char) → KB
  | [] => kb
  | t :: ts =>
      recordRepeat env ((recordSuccess { env with now := t } kb p f i).1)
        p f i ts

/-- All contiguous segments of a character list. -/
def segsOf (s : List Char) : List (List Char) :=
  (List.range (s.length + 1)).flatMap (fun i =>
    (List.range (s.length - i + 1)).map (fun n => (s.drop i).take n))

/-- Does the text contain (as a contiguous segment) a JSON object carrying
a `strategy` entry?  This is the computable reading of the claim's
"contains a JSON object with a `strategy` key". -/
def hasStrategyObjSub (s : List Char) : Bool :=
  (segsOf s).any (fun m =>
    match jsonParse m with
    | some (JVal.jobj kvs) => (kvs.lookup (cs "strategy")).isSome
    | _ => false)

/-- Does the text, parsed in its entirety, yield a value passing the
`"strategy" in v and "params" in v` membership test? -/
def wholeStratHit (s : List Char) : Bool :=
  match jsonParse s with
  | some v => stratKeysOk v
  | none => false

/-- Well-formed knowledge base: its serialized document is round-trip
well-formed (all strings plain printable ASCII). -/
def wfKB (kb : KB) : Bool := wfJ (kbToJson kb)

/-- The document snapshot of the C5 scenario: an input tagged
`data-test="pickup-location"` and a submit button. -/
def testDomC5 : List Char :=
  cs "<input data-test=\x22pickup-location\x22><button type=\x22submit\x22>Get Rates</button>"

/-- A one-record knowledge base whose record is an empty dict (no
`success_count`). -/
def kbUnit : KB :=
  { version := cs "1.0", last_updated := cs "t0",
    providers := [(cs "p", [(cs "f", [JVal.jobj []])])] }

/-- A knowledge base whose single record stores a non-numeric
`success_count`. -/
def kbBadCount : KB :=
  { version := cs "1.0", last_updated := cs "t0",
    providers := [(cs "p",
      [(cs "f", [JVal.jobj [(cs "success_count", JVal.jstr (cs "boom"))]])])] }

/-- A three-record knowledge base for reordering checks. -/
def kbThree : KB :=
  { version := cs "1.0", last_updated := cs "t0",
    providers := [(cs "p",
      [(cs "f", [labelProp (cs "A"), cssProp (cs "#b"), cssProp (cs "#c")])])] }

/-- An automation environment where every strategy realizes to handle 0 and
validates; `ok` controls whether the durable store accepts writes. -/
def envAlways (ok : Bool) : Env :=
  { realize := fun _ => some 0, validate := fun _ => true, saveOk := ok,
    now := cs "t1", ollamaAvail := false, ollamaHTTP := none }

/-- An environment where only the `#b` selector realizes (to handle 5) and
everything validates. -/
def envOnlyB : Env :=
  { realize := fun s => if s == cssProp (cs "#b") then some 5 else none,
    validate := fun _ => true, saveOk := true, now := cs "t1",
    ollamaAvail := false, ollamaHTTP := none }

/-- An environment where nothing realizes. -/
def envNoneAvail : Env :=
  { realize := fun _ => none, validate := fun _ => false, saveOk := true,
    now := cs "t1", ollamaAvail := false, ollamaHTTP := none }

/-- Does this record lack a `success_count` entry (being a dict)? -/
def lacksCount (r : JVal) : Bool :=
  match r with
  | JVal.jobj kvs => (kvs.lookup (cs "success_count")).isNone
  | _ => false

theorem lookup_mapAt_self {α : Type} (m : List (List Char × α))
    (k : List Char) (g : α → α) :
    (mapAt m k g).lookup k = (m.lookup k).map g := by
  induction m with
  | nil => simp [mapAt]
  | cons kv rest ih =>
      obtain ⟨k', v⟩ := kv
      by_cases h : k' = k
      · subst h
        simp [mapAt, List.lookup]
      · have hb : (k == k') = false := beq_eq_false_iff_ne.mpr (Ne.symm h)
        simp [mapAt, h, List.lookup, hb, ih]

theorem lookup_upsert_self {α : Type} (m : List (List Char × α))
    (k : List Char) (d : α) (g : α → α) :
    (upsert m k d g).lookup k = some (g ((m.lookup k).getD d)) := by
  induction m with
  | nil => simp [upsert, List.lookup]
  | cons kv rest ih =>
      obtain ⟨k', v⟩ := kv
      by_cases h : k' = k
      · subst h
        simp [upsert, List.lookup]
      · have hb : (k == k') = false := beq_eq_false_iff_ne.mpr (Ne.symm h)
        simp [upsert, h, List.lookup, hb, ih]

theorem lookup_objSet_self (m : List (List Char × JVal)) (k : List Char)
    (v : JVal) : (objSet m k v).lookup k = some v := by
  induction m with
  | nil => simp [objSet, List.lookup]
  | cons kv rest ih =>
      obtain ⟨k', v'⟩ := kv
      by_cases h : k' = k
      · subst h
        simp [objSet, List.lookup]
      · have hb : (k == k') = false := beq_eq_false_iff_ne.mpr (Ne.symm h)
        simp [objSet, h, List.lookup, hb, ih]

theorem lookup_objSet_ne (m : List (List Char × JVal)) (k k' : List Char)
    (v : JVal) (h : k' ≠ k) : (objSet m k v).lookup k' = m.lookup k' := by
  have hb : (k' == k) = false := beq_eq_false_iff_ne.mpr h
  induction m with
  | nil => simp [objSet, List.lookup, hb]
  | cons kv rest ih =>
      obtain ⟨a, b⟩ := kv
      by_cases ha : a = k
      · subst ha
        simp [objSet, List.lookup, hb]
      · simp [objSet, ha, List.lookup, ih]

theorem objSet_objSet_same (m : List (List Char × JVal)) (k : List Char)
    (v w : JVal) : objSet (objSet m k v) k w = objSet m k w := by
  induction m with
  | nil => simp [objSet]
  | cons kv rest ih =>
      obtain ⟨a, b⟩ := kv
      by_cases ha : a = k
      · subst ha
        simp [objSet]
      · simp [objSet, ha, ih]

theorem objSet_comm_of_mem (m : List (List Char × JVal)) (k1 k2 : List Char)
    (v1 v2 : JVal) (hne : k2 ≠ k1) (hmem : (m.lookup k2).isSome = true) :
    objSet (objSet m k1 v1) k2 v2 = objSet (objSet m k2 v2) k1 v1 := by
  induction m with
  | nil => simp [List.lookup] at hmem
  | cons kv rest ih =>
      obtain ⟨a, b⟩ := kv
      by_cases h1 : a = k1
      · subst h1
        have h2 : a ≠ k2 := fun h => hne (h ▸ rfl)
        simp [objSet, h2, if_pos rfl]
      · by_cases h2 : a = k2
        · subst h2
          simp [objSet, h1, if_pos rfl]
        · have hb : (k2 == a) = false := beq_eq_false_iff_ne.mpr (Ne.symm h2)
          have hm : (rest.lookup k2).isSome = true := by
            simpa [List.lookup, hb] using hmem
          simp [objSet, h1, h2, ih hm]

theorem eraseIdx_take_drop {α : Type} :
    ∀ (l : List α) (i : Nat), l.eraseIdx i = l.take i ++ l.drop (i + 1)
  | [], i => by cases i <;> rfl
  | _ :: _, 0 => by simp [List.eraseIdx]
  | a :: l, i + 1 => by
      simp [List.eraseIdx, eraseIdx_take_drop l i]

theorem getStrategies_path (kb : KB) (p f : List Char)
    (h : getStrategies kb p f ≠ []) :
    ∃ flds, kb.providers.lookup p = some flds ∧
      flds.lookup f = some (getStrategies kb p f) := by
  cases hp : kb.providers.lookup p with
  | none =>
      exact absurd (by simp [getStrategies, hp]) h
  | some flds =>
      cases hf : flds.lookup f with
      | none =>
          exact absurd (by simp [getStrategies, hp, hf]) h
      | some l =>
          refine ⟨flds, rfl, ?_⟩
          simp [getStrategies, hp, hf]

theorem getStrategies_set (kb : KB) (p f : List Char) (l : List JVal)
    (h : getStrategies kb p f ≠ []) :
    getStrategies (setStrategies kb p f l) p f = l := by
  obtain ⟨flds, hp, hf⟩ := getStrategies_path kb p f h
  have hf' : (flds.lookup f).isSome = true := by simp [hf]
  simp [getStrategies, setStrategies, lookup_mapAt_self, hp,
    Option.isSome_iff_exists.mp hf']
  obtain ⟨w, hw⟩ := Option.isSome_iff_exists.mp hf'
  simp [hw]

theorem getStrategies_stamp (kb : KB) (p f t : List Char) :
    getStrategies { kb with last_updated := t } p f = getStrategies kb p f :=
  rfl

theorem recordSuccess_ok (env : Env) (kb : KB) (p f : List Char) (i : Nat)
    (l : List JVal) (kvs : List (List Char × JVal)) (c : JVal)
    (hl : getStrategies kb p f = l) (hi : i < l.length)
    (hrec : l.get ⟨i, hi⟩ = JVal.jobj kvs)
    (hc : (match kvs.lookup (cs "success_count") with
           | none => some (JVal.jnum 1)
           | some v => pyAddOne v) = some c) :
    recordSuccess env kb p f i =
      ({ setStrategies kb p f (l.set i (JVal.jobj (objSet (objSet kvs
          (cs "success_count") c) (cs "last_success") (JVal.jstr env.now))))
        with last_updated := env.now }, !env.saveOk) := by
  subst hl
  rw [recordSuccess]
  simp only [dif_pos hi, hrec, hc, saveKB]

theorem recordSuccess_oob (env : Env) (kb : KB) (p f : List Char) (j : Nat)
    (h : (getStrategies kb p f).length ≤ j) :
    recordSuccess env kb p f j = (kb, false) := by
  rw [recordSuccess]
  rw [dif_neg (by omega)]

theorem recordSuccess_badCount (env : Env) (kb : KB) (p f : List Char)
    (i : Nat) (l : List JVal) (kvs : List (List Char × JVal)) (v : JVal)
    (hl : getStrategies kb p f = l) (hi : i < l.length)
    (hrec : l.get ⟨i, hi⟩ = JVal.jobj kvs)
    (hv : kvs.lookup (cs "success_count") = some v)
    (hbad : pyAddOne v = none) :
    recordSuccess env kb p f i = (kb, true) := by
  subst hl
  rw [recordSuccess]
  simp only [dif_pos hi, hrec, hv, hbad]

theorem recordSuccess_res (env : Env) (kb : KB) (p f : List Char) (i : Nat)
    (l : List JVal) (kvs : List (List Char × JVal)) (c : JVal)
    (hl : getStrategies kb p f = l) (hi : i < l.length)
    (hrec : l.get ⟨i, hi⟩ = JVal.jobj kvs)
    (hc : (match kvs.lookup (cs "success_count") with
           | none => some (JVal.jnum 1)
           | some v => pyAddOne v) = some c) :
    (recordSuccess env kb p f i).2 = !env.saveOk ∧
    getStrategies (recordSuccess env kb p f i).1 p f =
      l.set i (JVal.jobj (objSet (objSet kvs (cs "success_count") c)
        (cs "last_success") (JVal.jstr env.now))) := by
  have hne : getStrategies kb p f ≠ [] := by
    rw [hl]; exact List.ne_nil_of_length_pos (by omega)
  have h := recordSuccess_ok env kb p f i l kvs c hl hi hrec hc
  rw [h]
  refine ⟨rfl, ?_⟩
  show getStrategies (setStrategies kb p f _) p f = _
  rw [getStrategies_set kb p f _ hne]

/-- Claim C7: `promote_strategy` on an in-range index moves the record at
`i` to index 0, keeps the list length, and preserves the relative order of
the remaining records (the new tail is `take i ++ drop (i+1)`); an
out-of-range index leaves the knowledge base entirely untouched. -/
theorem c7_promote_moves_to_front (env : Env) (kb : KB) (p f : List Char)
    (i : Nat) :
    (∀ hi : i < (getStrategies kb p f).length,
      getStrategies (promoteStrategy env kb p f i).1 p f =
        (getStrategies kb p f).get ⟨i, hi⟩ ::
          ((getStrategies kb p f).take i ++
            (getStrategies kb p f).drop (i + 1)) ∧
      (getStrategies (promoteStrategy env kb p f i).1 p f).length =
        (getStrategies kb p f).length) ∧
    ((getStrategies kb p f).length ≤ i →
      promoteStrategy env kb p f i = (kb, false)) := by
  constructor
  · intro hi
    have hne : getStrategies kb p f ≠ [] :=
      List.ne_nil_of_length_pos (by omega)
    rw [promoteStrategy]
    simp only [dif_pos hi, saveKB]
    have hset := getStrategies_set kb p f
      ((getStrategies kb p f).get ⟨i, hi⟩ ::
        (getStrategies kb p f).eraseIdx i) hne
    constructor
    · show getStrategies (setStrategies kb p f _) p f = _
      rw [hset, eraseIdx_take_drop]
    · show (getStrategies (setStrategies kb p f _) p f).length = _
      rw [hset]
      simp [List.length_eraseIdx, hi]
      omega
  · intro hge
    rw [promoteStrategy]
    rw [dif_neg (by omega)]

theorem recordRepeat_go (env : Env) (p f : List Char) (i : Nat) :
    ∀ (ts : List (List Char)), ts ≠ [] → ∀ (kb : KB) (l : List JVal)
      (kvs : List (List Char × JVal)) (n : Int),
      getStrategies kb p f = l →
      ∀ (hi : i < l.length), l.get ⟨i, hi⟩ = JVal.jobj kvs →
      kvs.lookup (cs "success_count") = some (JVal.jnum n) →
      getStrategies (recordRepeat env kb p f i ts) p f =
        l.set i (JVal.jobj (objSet (objSet kvs (cs "success_count")
          (JVal.jnum (n + ts.length))) (cs "last_success")
          (JVal.jstr (ts.getLastD (cs "")))))
  | [], hts, _, _, _, _, _, _, _, _ => absurd rfl hts
  | [t], _, kb, l, kvs, n, hl, hi, hrec, hn => by
      have hc : (match kvs.lookup (cs "success_count") with
          | none => some (JVal.jnum 1)
          | some v => pyAddOne v) = some (JVal.jnum (n + 1)) := by
        rw [hn]; rfl
      have h := recordSuccess_res { env with now := t } kb p f i l kvs _
        hl hi hrec hc
      show getStrategies
        (recordSuccess { env with now := t } kb p f i).1 p f = _
      rw [h.2]
      norm_num
  | t :: t2 :: ts', _, kb, l, kvs, n, hl, hi, hrec, hn => by
      have hc : (match kvs.lookup (cs "success_count") with
          | none => some (JVal.jnum 1)
          | some v => pyAddOne v) = some (JVal.jnum (n + 1)) := by
        rw [hn]; rfl
      have h := recordSuccess_res { env with now := t } kb p f i l kvs _
        hl hi hrec hc
      show getStrategies (recordRepeat env
        (recordSuccess { env with now := t } kb p f i).1 p f i (t2 :: ts'))
        p f = _
      have hi1 : i < (l.set i (JVal.jobj (objSet (objSet kvs
          (cs "success_count") (JVal.jnum (n + 1))) (cs "last_success")
          (JVal.jstr t)))).length := by
        simpa using hi
      have hrec1 : (l.set i (JVal.jobj (objSet (objSet kvs
          (cs "success_count") (JVal.jnum (n + 1))) (cs "last_success")
          (JVal.jstr t)))).get ⟨i, hi1⟩ = JVal.jobj (objSet (objSet kvs
          (cs "success_count") (JVal.jnum (n + 1))) (cs "last_success")
          (JVal.jstr t)) := by
        simp [List.get_eq_getElem]
      have hn1 : (objSet (objSet kvs (cs "success_count")
          (JVal.jnum (n + 1))) (cs "last_success")
          (JVal.jstr t)).lookup (cs "success_count") =
          some (JVal.jnum (n + 1)) := by
        rw [lookup_objSet_ne _ _ _ _ (by decide), lookup_objSet_self]
      have ih := recordRepeat_go env p f i (t2 :: ts') (by simp)
        (recordSuccess { env with now := t } kb p f i).1 _ _ (n + 1)
        h.2 hi1 hrec1 hn1
      rw [ih]
      rw [List.set_set]
      have hsc : ((objSet kvs (cs "success_count")
          (JVal.jnum (n + 1))).lookup (cs "success_count")).isSome = true := by
        rw [lookup_objSet_self]; rfl
      rw [objSet_comm_of_mem _ _ _ _ _ (by decide) hsc]
      rw [objSet_objSet_same, objSet_objSet_same]
      have hnum : (n + 1 + ((t2 :: ts').length : Int)) =
          n + ((t :: t2 :: ts').length : Int) := by
        simp only [List.length_cons]
        push_cast
        ring
      rw [hnum]
      rfl

/-- Claim C8: starting from a record with no recorded successes
(`success_count` absent or 0), M calls to `record_success` (one per
timestamp in `ts`) leave the list as `l.set i r` — same length, no
reordering, every other record untouched — where the updated record
carries `success_count = M` and the `last_success` of the final call; an
out-of-range index is a complete no-op. -/
theorem c8_record_success_counts (env : Env) (kb : KB) (p f : List Char)
    (i : Nat) (l : List JVal) (kvs : List (List Char × JVal))
    (ts : List (List Char))
    (hsave : env.saveOk = true) (hl : getStrategies kb p f = l)
    (hi : i < l.length) (hrec : l.get ⟨i, hi⟩ = JVal.jobj kvs)
    (h0 : kvs.lookup (cs "success_count") = none ∨
      kvs.lookup (cs "success_count") = some (JVal.jnum 0))
    (hts : ts ≠ []) :
    getStrategies (recordRepeat env kb p f i ts) p f =
      l.set i (JVal.jobj (objSet (objSet kvs (cs "success_count")
        (JVal.jnum ts.length)) (cs "last_success")
        (JVal.jstr (ts.getLastD (cs ""))))) ∧
    (objSet (objSet kvs (cs "success_count") (JVal.jnum ts.length))
      (cs "last_success") (JVal.jstr (ts.getLastD (cs "")))).lookup
      (cs "success_count") = some (JVal.jnum ts.length) ∧
    (∀ j, l.length ≤ j → recordSuccess env kb p f j = (kb, false)) := by
  refine ⟨?_, ?_, ?_⟩
  · cases h0 with
    | inr h =>
        have hgo := recordRepeat_go env p f i ts hts kb l kvs 0 hl hi hrec h
        rw [hgo]
        norm_num
    | inl h =>
        cases ts with
        | nil => exact absurd rfl hts
        | cons t ts' =>
            have hc : (match kvs.lookup (cs "success_count") with
                | none => some (JVal.jnum 1)
                | some v => pyAddOne v) = some (JVal.jnum 1) := by rw [h]
            have h1 := recordSuccess_res { env with now := t } kb p f i l
              kvs _ hl hi hrec hc
            cases ts' with
            | nil =>
                show getStrategies
                  (recordSuccess { env with now := t } kb p f i).1 p f = _
                rw [h1.2]
                norm_num
            | cons t2 ts'' =>
                show getStrategies (recordRepeat env
                  (recordSuccess { env with now := t } kb p f i).1 p f i
                  (t2 :: ts'')) p f = _
                have hi1 : i < (l.set i (JVal.jobj (objSet (objSet kvs
                    (cs "success_count") (JVal.jnum 1)) (cs "last_success")
                    (JVal.jstr t)))).length := by
                  simpa using hi
                have hrec1 : (l.set i (JVal.jobj (objSet (objSet kvs
                    (cs "success_count") (JVal.jnum 1)) (cs "last_success")
                    (JVal.jstr t)))).get ⟨i, hi1⟩ =
                    JVal.jobj (objSet (objSet kvs (cs "success_count")
                    (JVal.jnum 1)) (cs "last_success") (JVal.jstr t)) := by
                  simp [List.get_eq_getElem]
                have hn1 : (objSet (objSet kvs (cs "success_count")
                    (JVal.jnum 1)) (cs "last_success")
                    (JVal.jstr t)).lookup (cs "success_count") =
                    some (JVal.jnum 1) := by
                  rw [lookup_objSet_ne _ _ _ _ (by decide),
                    lookup_objSet_self]
                have ih := recordRepeat_go env p f i (t2 :: ts'') (by simp)
                  (recordSuccess { env with now := t } kb p f i).1 _ _ 1
                  h1.2 hi1 hrec1 hn1
                rw [ih]
                rw [List.set_set]
                have hsc : ((objSet kvs (cs "success_count")
                    (JVal.jnum 1)).lookup
                    (cs "success_count")).isSome = true := by
                  rw [lookup_objSet_self]; rfl
                rw [objSet_comm_of_mem _ _ _ _ _ (by decide) hsc]
                rw [objSet_objSet_same, objSet_objSet_same]
                have hnum : ((1 : Int) + ((t2 :: ts'').length : Int)) =
                    (((t :: t2 :: ts'').length : Nat) : Int) := by
                  simp only [List.length_cons]
                  push_cast
                  ring
                rw [hnum]
                rfl
  · rw [lookup_objSet_ne _ _ _ _ (by decide), lookup_objSet_self]
  · intro j hj
    exact recordSuccess_oob env kb p f j (by rw [hl]; omega)

/-- Witness for C8: two recorded successes on the seeded-shape record of
`kbUnit` yield `success_count = 2` and the second call's timestamp. -/
theorem c8_record_success_counts_witness :
    getStrategies (recordRepeat (envAlways true) kbUnit (cs "p") (cs "f") 0
      [cs "ta", cs "tb"]) (cs "p") (cs "f") =
      [JVal.jobj [(cs "success_count", JVal.jnum 2),
        (cs "last_success", JVal.jstr (cs "tb"))]] := by
  have h := c8_record_success_counts (envAlways true) kbUnit (cs "p")
    (cs "f") 0 [JVal.jobj []] [] [cs "ta", cs "tb"] rfl (by decide)
    (by decide) (by decide) (Or.inl (by decide)) (by decide)
  exact h.1.trans (by decide)

/-- Witness for C7: promoting index 1 of a three-record list moves it to
the front and keeps the other two in order. -/
theorem c7_promote_moves_to_front_witness :
    getStrategies (promoteStrategy (envAlways true) kbThree (cs "p")
      (cs "f") 1).1 (cs "p") (cs "f") =
      [cssProp (cs "#b"), labelProp (cs "A"), cssProp (cs "#c")] := by
  have h := (c7_promote_moves_to_front (envAlways true) kbThree (cs "p")
    (cs "f") 1).1 (by decide)
  exact h.1.trans (by decide)

/-- Claim C10 (amended): `record_success` on an in-range index never raises
provided the record is a dict whose `success_count`, if present, is a
number — in particular a record lacking the key, as every record of the
seeded default knowledge base does, is treated as count 0 and after one
call carries `success_count = 1` and a fresh `last_success`; but a record
whose stored `success_count` is non-numeric makes the increment raise a
`TypeError` before any mutation. -/
theorem c10_record_success_shapes :
    (∀ (env : Env) (kb : KB) (p f : List Char) (i : Nat) (l : List JVal)
      (kvs : List (List Char × JVal)),
      env.saveOk = true → getStrategies kb p f = l →
      ∀ (hi : i < l.length), l.get ⟨i, hi⟩ = JVal.jobj kvs →
      kvs.lookup (cs "success_count") = none →
      (recordSuccess env kb p f i).2 = false ∧
      getStrategies (recordSuccess env kb p f i).1 p f =
        l.set i (JVal.jobj (objSet (objSet kvs (cs "success_count")
          (JVal.jnum 1)) (cs "last_success") (JVal.jstr env.now)))) ∧
    (∀ (env : Env) (kb : KB) (p f : List Char) (i : Nat) (l : List JVal)
      (kvs : List (List Char × JVal)) (v : JVal),
      getStrategies kb p f = l →
      ∀ (hi : i < l.length), l.get ⟨i, hi⟩ = JVal.jobj kvs →
      kvs.lookup (cs "success_count") = some v → pyAddOne v = none →
      recordSuccess env kb p f i = (kb, true)) ∧
    (∀ t : List Char, ∀ pr ∈ (defaultKB t).providers, ∀ fl ∈ pr.2,
      ∀ r ∈ fl.2, lacksCount r = true) := by
  refine ⟨?_, ?_, ?_⟩
  · intro env kb p f i l kvs hsave hl hi hrec h0
    have hc : (match kvs.lookup (cs "success_count") with
        | none => some (JVal.jnum 1)
        | some v => pyAddOne v) = some (JVal.jnum 1) := by rw [h0]
    have h := recordSuccess_res env kb p f i l kvs _ hl hi hrec hc
    exact ⟨by rw [h.1, hsave]; rfl, h.2⟩
  · intro env kb p f i l kvs v hl hi hrec hv hbad
    exact recordSuccess_badCount env kb p f i l kvs v hl hi hrec hv hbad
  · intro t
    have hp : (defaultKB t).providers = (defaultKB (cs "")).providers := rfl
    rw [hp]
    decide

/-- Counterexample for C10 as stated: a stored record whose
`success_count` is the string `"boom"` makes `record_success` raise (the
returned flag records the uncaught `TypeError`), so the call does not
"never raise regardless of the stored record's shape". -/
theorem c10_counterexample :
    recordSuccess (envAlways true) kbBadCount (cs "p") (cs "f") 0 =
      (kbBadCount, true) := by
  decide

/-- Witness for C10 (amended): one call on the keyless record of `kbUnit`
does not raise and yields `success_count = 1` with the call's
timestamp. -/
theorem c10_record_success_shapes_witness :
    (recordSuccess (envAlways true) kbUnit (cs "p") (cs "f") 0).2 = false ∧
    getStrategies (recordSuccess (envAlways true) kbUnit (cs "p")
      (cs "f") 0).1 (cs "p") (cs "f") =
      [JVal.jobj [(cs "success_count", JVal.jnum 1),
        (cs "last_success", JVal.jstr (cs "t1"))]] := by
  have h := c10_record_success_shapes.1 (envAlways true) kbUnit (cs "p")
    (cs "f") 0 [JVal.jobj []] [] rfl (by decide) (by decide) (by decide)
    (by decide)
  exact ⟨h.1, h.2.trans (by decide)⟩

theorem findLoop_allFail (env : Env) (p f : List Char) :
    ∀ (l : List JVal) (i : Nat) (kb : KB),
      (∀ s ∈ l, failsB env s = true) →
      findLoop env p f i l kb = ((none, -1), kb, failTrace env i l)
  | [], _, _, _ => rfl
  | s :: rest, i, kb, hall => by
      have hs := hall s (List.mem_cons_self s rest)
      have ih := findLoop_allFail env p f rest (i + 1) kb
        (fun x hx => hall x (List.mem_cons_of_mem _ hx))
      rw [findLoop]
      cases hr : env.realize s with
      | none =>
          simp only [ih]
          simp [failTrace, attemptEvs, hr]
      | some h =>
          have hv : env.validate h = false := by
            simpa [failsB, hr] using hs
          simp only [hv, ih]
          simp [failTrace, attemptEvs, hr, hv]

theorem findLoop_firstSuccess (env : Env) (p f : List Char) :
    ∀ (l1 : List JVal) (s : JVal) (l2 : List JVal) (i : Nat) (kb kb' : KB)
      (hd : Nat),
      (∀ x ∈ l1, failsB env x = true) →
      env.realize s = some hd → env.validate hd = true →
      recordSuccess env kb p f (i + l1.length) = (kb', false) →
      findLoop env p f i (l1 ++ s :: l2) kb =
        ((some hd, Int.ofNat (i + l1.length)), kb',
          failTrace env i l1 ++ [Ev.evRealize (i + l1.length),
            Ev.evValidate (i + l1.length), Ev.evRecord (i + l1.length)])
  | [], s, l2, i, kb, kb', hd, _, hr, hv, hrec => by
      simp only [List.nil_append, List.length_nil, Nat.add_zero] at *
      rw [findLoop]
      simp only [hr, hv, if_true, hrec]
      simp [failTrace]
  | x :: l1', s, l2, i, kb, kb', hd, hall, hr, hv, hrec => by
      have hx := hall x (List.mem_cons_self x l1')
      have hlen : i + (x :: l1').length = (i + 1) + l1'.length := by
        simp [List.length_cons]; omega
      rw [hlen] at hrec
      have ih := findLoop_firstSuccess env p f l1' s l2 (i + 1) kb kb' hd
        (fun y hy => hall y (List.mem_cons_of_mem _ hy)) hr hv hrec
      rw [List.cons_append, findLoop]
      cases hrx : env.realize x with
      | none =>
          simp only [ih]
          simp [failTrace, attemptEvs, hrx, hlen]
          omega
      | some h =>
          have hvx : env.validate h = false := by
            simpa [failsB, hrx] using hx
          simp only [hvx, ih]
          simp [failTrace, attemptEvs, hrx, hvx, hlen]
          omega

theorem failTrace_no_record (env : Env) :
    ∀ (l : List JVal) (i : Nat),
      (∀ x ∈ l, failsB env x = true) →
      ∀ j, Ev.evRecord j ∉ failTrace env i l
  | [], _, _, j => by simp [failTrace]
  | s :: rest, i, hall, j => by
      have hs := hall s (List.mem_cons_self s rest)
      have ih := failTrace_no_record env rest (i + 1)
        (fun x hx => hall x (List.mem_cons_of_mem _ hx)) j
      intro hmem
      rw [failTrace] at hmem
      rcases List.mem_append.mp hmem with hm | hm
      · cases hr : env.realize s with
        | none => simp [attemptEvs, hr] at hm
        | some h =>
            have hv : env.validate h = false := by
              simpa [failsB, hr] using hs
            simp [attemptEvs, hr, hv] at hm
      · exact ih hm

theorem recordSuccess_noRaise (env : Env) (kb : KB) (p f : List Char)
    (k : Nat) (l : List JVal) (hl : getStrategies kb p f = l)
    (hk : k < l.length) (hok : recordOkB (l.get ⟨k, hk⟩) = true)
    (hsave : env.saveOk = true) :
    (recordSuccess env kb p f k).2 = false := by
  cases hv : l.get ⟨k, hk⟩ with
  | jobj kvs =>
      rw [hv] at hok
      have hc : ∃ c, (match kvs.lookup (cs "success_count") with
          | none => some (JVal.jnum 1)
          | some v => pyAddOne v) = some c := by
        cases hsc : kvs.lookup (cs "success_count") with
        | none => exact ⟨JVal.jnum 1, rfl⟩
        | some v =>
            rw [recordOkB] at hok
            rw [hsc] at hok
            cases v with
            | jnum n => exact ⟨JVal.jnum (n + 1), rfl⟩
            | jbool b =>
                exact ⟨JVal.jnum ((if b then (1 : Int) else 0) + 1), rfl⟩
            | jnull => simp at hok
            | jstr s => simp at hok
            | jarr xs => simp at hok
            | jobj o => simp at hok
      obtain ⟨c, hc⟩ := hc
      have h := recordSuccess_res env kb p f k l kvs c hl hk hv hc
      rw [h.1, hsave]
      rfl
  | jnull => rw [hv] at hok; simp [recordOkB] at hok
  | jbool b => rw [hv] at hok; simp [recordOkB] at hok
  | jnum n => rw [hv] at hok; simp [recordOkB] at hok
  | jstr s => rw [hv] at hok; simp [recordOkB] at hok
  | jarr xs => rw [hv] at hok; simp [recordOkB] at hok

/-- Claim C1: the resolver tries the stored strategies strictly in list
order.  An empty entry returns the NotFound sentinel `(None, -1)` with no
realize or validate call; if every strategy fails the sentinel is returned
(never an exception — the run is a total function) with exactly the
per-strategy attempt trace; and if indices `0..k-1` all fail while index
`k` realizes and validates, the run returns the handle with index `k`,
commits exactly one `record_success` for index `k`, and its trace shows
the failed attempts in order followed by the winning attempt. -/
theorem c1_resolver_first_match (env : Env) (kb : KB) (p f : List Char) :
    ((getStrategies kb p f = []) →
      findWithStrategies env kb p f = ((none, -1), kb, [])) ∧
    ((∀ s ∈ getStrategies kb p f, failsB env s = true) →
      findWithStrategies env kb p f =
        ((none, -1), kb, failTrace env 0 (getStrategies kb p f))) ∧
    (∀ (k : Nat) (hk : k < (getStrategies kb p f).length) (hd : Nat),
      (∀ j (hj : j < k),
        failsB env ((getStrategies kb p f).get ⟨j, Nat.lt_trans hj hk⟩)
          = true) →
      env.realize ((getStrategies kb p f).get ⟨k, hk⟩) = some hd →
      env.validate hd = true → env.saveOk = true →
      recordOkB ((getStrategies kb p f).get ⟨k, hk⟩) = true →
      findWithStrategies env kb p f =
        ((some hd, Int.ofNat k), (recordSuccess env kb p f k).1,
          failTrace env 0 ((getStrategies kb p f).take k) ++
            [Ev.evRealize k, Ev.evValidate k, Ev.evRecord k]) ∧
      (findWithStrategies env kb p f).2.2.count (Ev.evRecord k) = 1 ∧
      (∀ j, Ev.evRecord j ∈ (findWithStrategies env kb p f).2.2 →
        j = k)) := by
  refine ⟨?_, ?_, ?_⟩
  · intro h
    rw [findWithStrategies, h]
    rfl
  · intro hall
    rw [findWithStrategies]
    exact findLoop_allFail env p f _ 0 kb hall
  · intro k hk hd hfail hr hv hsave hok
    have htakefail : ∀ x ∈ (getStrategies kb p f).take k,
        failsB env x = true := by
      intro x hx
      obtain ⟨j, hj, hxj⟩ := List.mem_iff_getElem.mp hx
      have hjk : j < k := by
        have := hj
        simp [List.length_take] at this
        omega
      have : ((getStrategies kb p f).take k)[j] =
          (getStrategies kb p f).get ⟨j, Nat.lt_trans hjk hk⟩ := by
        rw [List.get_eq_getElem]
        exact List.getElem_take ..
      rw [this] at hxj
      have := hfail j hjk
      rw [hxj] at this
      exact this
    have hlen : ((getStrategies kb p f).take k).length = k := by
      simp [List.length_take]
      omega
    have hnoraise := recordSuccess_noRaise env kb p f k
      (getStrategies kb p f) rfl hk hok hsave
    have hrecpair : recordSuccess env kb p f k =
        ((recordSuccess env kb p f k).1, false) := by
      rw [← hnoraise]
    have hsplit : getStrategies kb p f =
        (getStrategies kb p f).take k ++
          (getStrategies kb p f).get ⟨k, hk⟩ ::
            (getStrategies kb p f).drop (k + 1) := by
      conv_lhs => rw [← List.take_append_drop k (getStrategies kb p f)]
      rw [List.drop_eq_getElem_cons hk]
      simp [List.get_eq_getElem]
    have hrec' : recordSuccess env kb p f
        (0 + ((getStrategies kb p f).take k).length) =
        ((recordSuccess env kb p f k).1, false) := by
      rw [hlen, Nat.zero_add]
      exact hrecpair
    have hmain := findLoop_firstSuccess env p f
      ((getStrategies kb p f).take k)
      ((getStrategies kb p f).get ⟨k, hk⟩)
      ((getStrategies kb p f).drop (k + 1)) 0 kb
      (recordSuccess env kb p f k).1 hd htakefail hr hv hrec'
    rw [hlen, Nat.zero_add] at hmain
    have hrun : findWithStrategies env kb p f =
        ((some hd, Int.ofNat k), (recordSuccess env kb p f k).1,
          failTrace env 0 ((getStrategies kb p f).take k) ++
            [Ev.evRealize k, Ev.evValidate k, Ev.evRecord k]) := by
      rw [findWithStrategies]
      conv_lhs => rw [hsplit]
      exact hmain
    refine ⟨hrun, ?_, ?_⟩
    · rw [hrun]
      simp only []
      rw [List.count_append]
      have h0 : (failTrace env 0
          ((getStrategies kb p f).take k)).count (Ev.evRecord k) = 0 :=
        List.count_eq_zero.mpr
          (failTrace_no_record env _ 0 htakefail k)
      rw [h0]
      simp [List.count_cons]
    · intro j hj
      rw [hrun] at hj
      simp only [] at hj
      rcases List.mem_append.mp hj with hm | hm
      · exact absurd hm (failTrace_no_record env _ 0 htakefail j)
      · simp at hm
        exact hm

/-- Witness for C1: with strategies `[A, #b, #c]` where only `#b`
realizes, the resolver returns handle 5 with index 1. -/
theorem c1_resolver_first_match_witness :
    (findWithStrategies envOnlyB kbThree (cs "p") (cs "f")).1 =
      (some 5, 1) := by
  have h := (c1_resolver_first_match envOnlyB kbThree (cs "p")
    (cs "f")).2.2 1 (by decide) 5
    (by
      intro j hj
      have hj0 : j = 0 := by omega
      subst hj0
      rfl)
    (by decide) (by decide) rfl (by decide)
  rw [h.1]
  rfl

/-- Claim C6 evaluation at the failing input: with a single stored strategy
that realizes (handle 0) and validates, but a durable store that rejects
writes, the resolver's `except Exception: continue` swallows the
persistence failure raised inside `record_success` and skips the winning
strategy: the run returns the NotFound sentinel `(None, -1)` instead of
`(handle, 0)`, even though the in-memory record did keep its incremented
`success_count` — and no warning of any kind is emitted (the trace shows
only the realize / validate / record calls). -/
theorem c6_persistence_failure_eval :
    findWithStrategies (envAlways false) kbUnit (cs "p") (cs "f") =
      ((none, -1),
        { version := cs "1.0", last_updated := cs "t1",
          providers := [(cs "p", [(cs "f",
            [JVal.jobj [(cs "success_count", JVal.jnum 1),
              (cs "last_success", JVal.jstr (cs "t1"))]])])] },
        [Ev.evRealize 0, Ev.evValidate 0, Ev.evRecord 0]) := by
  decide

theorem pyInsertAt_zero (l : List JVal) (x : JVal) :
    pyInsertAt l 0 x = x :: l := by
  cases l with
  | nil => rfl
  | cons a t => simp [pyInsertAt]

theorem getStrategies_addMem_zero (kb : KB) (p f : List Char) (c : JVal) :
    getStrategies (addStrategyMem kb p f c 0) p f =
      c :: getStrategies kb p f := by
  unfold getStrategies addStrategyMem
  simp [lookup_upsert_self, pyInsertAt_zero]

theorem repairCandidate_no_save (env : Env) (f dom : List Char)
    (failed : List JVal) :
    Ev.evSaveTry ∉ (repairCandidate env f dom failed).2 ∧
    Ev.evApply ∉ (repairCandidate env f dom failed).2 := by
  rw [repairCandidate]
  cases ha : aiProposeStrategy f dom failed with
  | some s => simp
  | none =>
      cases hv : env.ollamaAvail <;> simp [hv]

/-- Claim C2: a repair candidate (from either stage) that fails to realize
or to validate leads to `(None, None)` with the knowledge base untouched
and no store write attempted; a candidate that realizes and validates is
committed via `add_strategy(position=0)` — the entry's new head is the
candidate — and the handle plus candidate are returned.  Persistence is
assumed to succeed (its failure mode is claim C6's subject). -/
theorem c2_repair_validation_gate (env : Env) (kb : KB)
    (p f dom : List Char) (failed : List JVal) (c : JVal)
    (hsave : env.saveOk = true)
    (hc : (repairCandidate env f dom failed).1 = some c) :
    (env.realize c = none →
      (findWithAiRepair env kb p f dom failed).1 = (none, none) ∧
      (findWithAiRepair env kb p f dom failed).2.1 = kb ∧
      Ev.evSaveTry ∉ (findWithAiRepair env kb p f dom failed).2.2) ∧
    (∀ hd, env.realize c = some hd → env.validate hd = false →
      (findWithAiRepair env kb p f dom failed).1 = (none, none) ∧
      (findWithAiRepair env kb p f dom failed).2.1 = kb ∧
      Ev.evSaveTry ∉ (findWithAiRepair env kb p f dom failed).2.2) ∧
    (∀ hd, env.realize c = some hd → env.validate hd = true →
      (findWithAiRepair env kb p f dom failed).1 = (some hd, some c) ∧
      (findWithAiRepair env kb p f dom failed).2.1 =
        (addStrategy env kb p f c 0).1 ∧
      getStrategies (findWithAiRepair env kb p f dom failed).2.1 p f =
        c :: getStrategies kb p f) := by
  have hnosave := (repairCandidate_no_save env f dom failed).1
  refine ⟨?_, ?_, ?_⟩
  · intro hr
    have hrun : findWithAiRepair env kb p f dom failed =
        ((none, none), kb,
          (repairCandidate env f dom failed).2 ++ [Ev.evApply]) := by
      rw [findWithAiRepair]
      simp only [hc, hr]
    rw [hrun]
    refine ⟨rfl, rfl, ?_⟩
    intro hmem
    rcases List.mem_append.mp hmem with hm | hm
    · exact hnosave hm
    · simp at hm
  · intro hd hr hv
    have hrun : findWithAiRepair env kb p f dom failed =
        ((none, none), kb, (repairCandidate env f dom failed).2 ++
          [Ev.evApply, Ev.evValid]) := by
      rw [findWithAiRepair]
      simp only [hc, hr]
      rw [if_neg (by simp [hv])]
    rw [hrun]
    refine ⟨rfl, rfl, ?_⟩
    intro hmem
    rcases List.mem_append.mp hmem with hm | hm
    · exact hnosave hm
    · simp at hm
  · intro hd hr hv
    have hrun : findWithAiRepair env kb p f dom failed =
        ((some hd, some c), (addStrategy env kb p f c 0).1,
          (repairCandidate env f dom failed).2 ++
            [Ev.evApply, Ev.evValid, Ev.evSaveTry]) := by
      rw [findWithAiRepair]
      simp only [hc, hr]
      rw [if_pos hv]
      rw [if_neg (by simp [addStrategy, saveKB, hsave])]
    rw [hrun]
    refine ⟨rfl, rfl, ?_⟩
    show getStrategies (addStrategy env kb p f c 0).1 p f = _
    rw [addStrategy, saveKB]
    exact getStrategies_addMem_zero kb p f c

/-- Witness for C2: Stage A proposes the first pickup selector for field
`pickup_input` over a snapshot mentioning `input`; it realizes (handle 0)
and validates, so the pipeline returns the handle with the committed
candidate. -/
theorem c2_repair_validation_gate_witness :
    (findWithAiRepair (envAlways true) kbUnit (cs "p") (cs "pickup_input")
      (cs "input") []).1 =
      (some 0, some (cssProp (cs "input[placeholder*=\x27pickup\x27]"))) := by
  have h := ((c2_repair_validation_gate (envAlways true) kbUnit (cs "p")
    (cs "pickup_input") (cs "input") []
    (cssProp (cs "input[placeholder*=\x27pickup\x27]")) rfl
    (by decide)).2.2) 0 rfl rfl
  rw [h.1]

/-- Claim C3: the Ollama generate call happens only when Stage A yields no
candidate and the availability probe succeeds; whenever Stage A yields a
candidate, neither the probe nor the generate call is made; and when the
probe fails (or times out — the probe's `except` turns that into `False`),
Stage B is skipped and the run's entire result is independent of the
generate endpoint's behavior. -/
theorem c3_stage_b_gating (env : Env) (kb : KB) (p f dom : List Char)
    (failed : List JVal) :
    (Ev.evOllama ∈ (findWithAiRepair env kb p f dom failed).2.2 →
      aiProposeStrategy f dom failed = none ∧ env.ollamaAvail = true) ∧
    (∀ s, aiProposeStrategy f dom failed = some s →
      Ev.evOllama ∉ (findWithAiRepair env kb p f dom failed).2.2 ∧
      Ev.evProbe ∉ (findWithAiRepair env kb p f dom failed).2.2) ∧
    (env.ollamaAvail = false →
      Ev.evOllama ∉ (findWithAiRepair env kb p f dom failed).2.2 ∧
      ∀ http, findWithAiRepair { env with ollamaHTTP := http } kb p f dom
        failed = findWithAiRepair env kb p f dom failed) := by
  have hevs : ∃ tail, (findWithAiRepair env kb p f dom failed).2.2 =
      (repairCandidate env f dom failed).2 ++ tail ∧
      Ev.evOllama ∉ tail ∧ Ev.evProbe ∉ tail := by
    rw [findWithAiRepair]
    cases hcand : (repairCandidate env f dom failed).1 with
    | none =>
        refine ⟨[], ?_, by simp, by simp⟩
        simp only [hcand]
        simp
    | some s =>
        simp only [hcand]
        cases hr : env.realize s with
        | none => exact ⟨[Ev.evApply], by simp, by simp, by simp⟩
        | some hd =>
            cases hv : env.validate hd with
            | false =>
                refine ⟨[Ev.evApply, Ev.evValid], ?_, by simp, by simp⟩
                simp [hv]
            | true =>
                refine ⟨[Ev.evApply, Ev.evValid, Ev.evSaveTry], ?_,
                  by simp, by simp⟩
                simp only [hv]
                cases hfl : (addStrategy env kb p f s 0).2 <;>
                  simp [hfl]
  obtain ⟨tail, htail, hnoo, hnop⟩ := hevs
  refine ⟨?_, ?_, ?_⟩
  · intro hmem
    rw [htail] at hmem
    rcases List.mem_append.mp hmem with hm | hm
    · rw [repairCandidate] at hm
      cases ha : aiProposeStrategy f dom failed with
      | some s => rw [ha] at hm; simp at hm
      | none =>
          refine ⟨rfl, ?_⟩
          rw [ha] at hm
          cases hv : env.ollamaAvail with
          | true => rfl
          | false => rw [hv] at hm; simp at hm
    · exact absurd hm hnoo
  · intro s hs
    constructor
    · intro hmem
      rw [htail] at hmem
      rcases List.mem_append.mp hmem with hm | hm
      · rw [repairCandidate, hs] at hm
        simp at hm
      · exact absurd hm hnoo
    · intro hmem
      rw [htail] at hmem
      rcases List.mem_append.mp hmem with hm | hm
      · rw [repairCandidate, hs] at hm
        simp at hm
      · exact absurd hm hnop
  · intro hav
    constructor
    · intro hmem
      rw [htail] at hmem
      rcases List.mem_append.mp hmem with hm | hm
      · rw [repairCandidate] at hm
        cases ha : aiProposeStrategy f dom failed with
        | some s => rw [ha] at hm; simp at hm
        | none => rw [ha, hav] at hm; simp at hm
      · exact absurd hm hnoo
    · intro http
      have hcand : repairCandidate { env with ollamaHTTP := http } f dom
          failed = repairCandidate env f dom failed := by
        rw [repairCandidate, repairCandidate]
        cases ha : aiProposeStrategy f dom failed with
        | some s => rfl
        | none =>
            show (if ({ env with ollamaHTTP := http } : Env).ollamaAvail
              then _ else _) = _
            simp only [hav]
            rw [if_neg (by simp [hav]), if_neg (by simp [hav])]
      rw [findWithAiRepair, findWithAiRepair, hcand]
      rfl

/-- Witness for C3: when Stage A yields a candidate, the run's trace has no
Ollama generate event. -/
theorem c3_stage_b_gating_witness :
    Ev.evOllama ∉ (findWithAiRepair (envAlways true) kbUnit (cs "p")
      (cs "pickup_input") (cs "input") []).2.2 := by
  have h := (c3_stage_b_gating (envAlways true) kbUnit (cs "p")
    (cs "pickup_input") (cs "input") []).2.1
    (cssProp (cs "input[placeholder*=\x27pickup\x27]")) (by decide)
  exact h.1

theorem cssProp_inj (s1 s2 : List Char) (h : cssProp s1 = cssProp s2) :
    s1 = s2 := by
  simpa [cssProp] using h

theorem dataTestSel_inj (t1 t2 : List Char)
    (h : dataTestSel t1 = dataTestSel t2) : t1 = t2 := by
  rw [dataTestSel, dataTestSel, List.append_assoc, List.append_assoc] at h
  exact List.append_cancel_right (List.append_cancel_left h)

theorem ariaSel_ne_dataTestSel (lab tid : List Char) :
    ariaSel lab ≠ dataTestSel tid := by
  intro h
  have h2 := congrArg (fun l => List.take 2 l) h
  rw [ariaSel, dataTestSel] at h2
  rw [show cs "[aria-label=\x27" = '[' :: 'a' :: cs "ria-label=\x27"
      from rfl,
    show cs "[data-test=\x27" = '[' :: 'd' :: cs "ata-test=\x27"
      from rfl] at h2
  simp [List.cons_append, List.take_succ_cons] at h2

/-- Claim C5 counterexample: for the scenario snapshot — an input tagged
`data-test="pickup-location"` plus a submit button — and field
`pickup_input`, Stage A's candidate list contains the generic
`button[type='submit']` proposal but no selector targeting the `data-test`
attribute at all, so no such selector precedes the button proposal. -/
theorem c5_counterexample :
    cssProp (dataTestSel (cs "pickup-location")) ∉
      aiProposals (cs "pickup_input") testDomC5 [] ∧
    cssProp (cs "button[type=\x27submit\x27]") ∈
      aiProposals (cs "pickup_input") testDomC5 [] := by
  decide

/-- Claim C5 (amended): for field `pickup_input`, Stage A never proposes a
selector targeting `data-test="pickup-location"` for any snapshot: the
keyword filter (normalized field name `pickupinput`, `input`, `button`,
`card`) matches no substring of `pickup-location`, so that attribute is
filtered out of the `data-test` proposals, and no other proposal source
produces that selector. -/
theorem c5_no_data_test_proposal (dom : List Char) (failed : List JVal) :
    cssProp (dataTestSel (cs "pickup-location")) ∉
      aiProposals (cs "pickup_input") dom failed ∧
    kwAny [normField (cs "pickup_input"), cs "input", cs "button",
      cs "card"] (cs "pickup-location") = false := by
  refine ⟨?_, by decide⟩
  intro hmem
  simp only [aiProposals] at hmem
  rcases List.mem_append.mp hmem with hmem3 | hmAria
  rcases List.mem_append.mp hmem3 with hmem2 | hmTest
  rcases List.mem_append.mp hmem2 with hmA | hmB
  · -- the input-keyed block
    split at hmA
    · split at hmA
      · exact absurd hmA (by decide)
      · split at hmA
        · exact absurd hmA (by decide)
        · split at hmA
          · exact absurd hmA (by decide)
          · simp at hmA
    · simp at hmA
  · -- the button block
    split at hmB
    · exact absurd hmB (by decide)
    · simp at hmB
  · -- the data-test block
    obtain ⟨tid, htid, hg⟩ := List.mem_filterMap.mp hmTest
    split at hg
    · rename_i hcond
      have heq := cssProp_inj _ _ (Option.some.inj hg)
      have htid' := dataTestSel_inj _ _ heq
      subst htid'
      exact absurd hcond (by decide)
    · exact absurd hg (by simp)
  · -- the aria-label block
    obtain ⟨lab, hlab, hg⟩ := List.mem_filterMap.mp hmAria
    split at hg
    · have heq := cssProp_inj _ _ (Option.some.inj hg)
      exact ariaSel_ne_dataTestSel lab (cs "pickup-location") heq
    · exact absurd hg (by simp)

theorem skipWs_cons (c : Char) (l : List Char) (h : isWsJ c = false) :
    skipWs (c :: l) = c :: l := by
  simp [skipWs, List.dropWhile_cons, h]

theorem escChar_ok (c : Char) (h : okChar c = true) : escChar c = [c] := by
  simp only [okChar, Bool.and_eq_true, decide_eq_true_eq] at h
  obtain ⟨⟨⟨h1, h2⟩, h3⟩, h4⟩ := h
  rw [escChar]
  rw [if_neg h3, if_neg h4]
  rw [if_neg (by rintro rfl; exact absurd h1 (by decide))]
  rw [if_neg (by rintro rfl; exact absurd h1 (by decide))]
  rw [if_neg (by rintro rfl; exact absurd h1 (by decide))]
  rw [if_neg (by omega)]

theorem escStr_id : ∀ s : List Char, s.all okChar = true → escStr s = s
  | [], _ => rfl
  | c :: t, h => by
      rw [List.all_cons, Bool.and_eq_true] at h
      rw [escStr, escChar_ok c h.1, escStr_id t h.2]
      rfl

theorem parseStrBody_print : ∀ (s : List Char) (rest : List Char),
    s.all okChar = true →
    parseStrBody (s ++ qchar :: rest) = some (s, rest)
  | [], rest, _ => by
      rw [List.nil_append]
      rw [parseStrBody.eq_def]
      simp
  | c :: t, rest, h => by
      rw [List.all_cons, Bool.and_eq_true] at h
      have hok := h.1
      simp only [okChar, Bool.and_eq_true, decide_eq_true_eq] at hok
      rw [List.cons_append]
      rw [parseStrBody.eq_def]
      simp only []
      rw [if_neg hok.1.2, if_neg hok.2]
      rw [parseStrBody_print t rest h.2]
      rfl

theorem digit_toNat (m : Nat) (h : m < 10) :
    (Char.ofNat (48 + m)).toNat = 48 + m := by
  interval_cases m <;> decide

theorem natChars_ne_nil (n : Nat) : natChars n ≠ [] := by
  rw [natChars]
  split
  · simp
  · simp

theorem natChars_digits (n : Nat) : (natChars n).all isDigitC = true := by
  induction n using Nat.strong_induction_on with
  | _ n ih =>
      rw [natChars]
      split
      · rename_i h
        interval_cases n <;> decide
      · rename_i h
        have h10 : n % 10 < 10 := Nat.mod_lt n (by omega)
        have hd : isDigitC (Char.ofNat (48 + n % 10)) = true := by
          set m := n % 10 with hm
          interval_cases m <;> decide
        simp [List.all_append,
          ih (n / 10) (Nat.div_lt_self (by omega) (by omega)), hd]

theorem digitsVal_append_digit (l : List Char) (c : Char) :
    digitsVal (l ++ [c]) = 10 * digitsVal l + (c.toNat - 48) := by
  simp [digitsVal, List.foldl_append]
  ring

theorem digitsVal_natChars (n : Nat) : digitsVal (natChars n) = n := by
  induction n using Nat.strong_induction_on with
  | _ n ih =>
      rw [natChars]
      split
      · rename_i h
        interval_cases n <;> decide
      · rename_i h
        rw [digitsVal_append_digit]
        rw [ih (n / 10) (Nat.div_lt_self (by omega) (by omega))]
        have h10 : n % 10 < 10 := Nat.mod_lt n (by omega)
        have hdt : (Char.ofNat (48 + n % 10)).toNat = 48 + n % 10 := by
          set m := n % 10 with hm
          interval_cases m <;> decide
        rw [hdt]
        omega

theorem takeWhile_all_append {α : Type} (p : α → Bool) :
    ∀ (l r : List α), l.all p = true →
      (∀ c t, r = c :: t → p c = false) →
      (l ++ r).takeWhile p = l ∧ (l ++ r).dropWhile p = r
  | [], r, _, hr => by
      cases r with
      | nil => simp
      | cons c t =>
          have := hr c t rfl
          simp [List.takeWhile_cons, List.dropWhile_cons, this]
  | a :: l, r, hall, hr => by
      rw [List.all_cons, Bool.and_eq_true] at hall
      have ih := takeWhile_all_append p l r hall.2 hr
      simp [List.takeWhile_cons, List.dropWhile_cons, hall.1, ih.1, ih.2]

theorem isDigitC_facts (c : Char) (h : isDigitC c = true) :
    isWsJ c = false ∧ c ≠ ']' ∧ c ≠ qchar ∧ c ≠ '[' ∧ c ≠ obrace ∧
    c ≠ '-' ∧ ('n' == c) = false ∧ ('t' == c) = false ∧
    ('f' == c) = false := by
  refine ⟨?_, ?_, ?_, ?_, ?_, ?_, ?_, ?_, ?_⟩
  · cases hc : isWsJ c
    · rfl
    · exfalso
      simp only [isWsJ, Bool.or_eq_true, decide_eq_true_eq] at hc
      rcases hc with ((((h1 | h1) | h1) | h1) | h1) | h1 <;>
        (subst h1; exact absurd h (by decide))
  · rintro rfl; exact absurd h (by decide)
  · rintro rfl; exact absurd h (by decide)
  · rintro rfl; exact absurd h (by decide)
  · rintro rfl; exact absurd h (by decide)
  · rintro rfl; exact absurd h (by decide)
  · rw [beq_eq_false_iff_ne]
    rintro rfl; exact absurd h (by decide)
  · rw [beq_eq_false_iff_ne]
    rintro rfl; exact absurd h (by decide)
  · rw [beq_eq_false_iff_ne]
    rintro rfl; exact absurd h (by decide)

theorem restOk_split (r : List Char) (h : restOkB r = true) :
    ∀ c t, r = c :: t → isDigitC c = false := by
  intro c t hr
  subst hr
  simp only [restOkB, Bool.not_eq_true'] at h
  exact h

theorem parseNum_print (n : Int) (rest : List Char)
    (hrest : restOkB rest = true) :
    parseNum (intChars n ++ rest) = some (JVal.jnum n, rest) := by
  by_cases hn : n < 0
  · rw [intChars, if_pos hn, List.cons_append]
    rw [parseNum]
    rw [if_pos rfl]
    have hsplit := takeWhile_all_append isDigitC (natChars n.natAbs) rest
      (natChars_digits _) (restOk_split rest hrest)
    simp only [hsplit.1, hsplit.2]
    rw [if_neg (by simp [natChars_ne_nil])]
    rw [digitsVal_natChars]
    have : -(n.natAbs : Int) = n := by omega
    rw [this]
  · rw [intChars, if_neg hn]
    obtain ⟨c, t, hct⟩ := List.exists_cons_of_ne_nil (natChars_ne_nil n.toNat)
    rw [hct, List.cons_append, parseNum]
    have hdc : isDigitC c = true := by
      have := natChars_digits n.toNat
      rw [hct, List.all_cons, Bool.and_eq_true] at this
      exact this.1
    have hfacts := isDigitC_facts c hdc
    rw [if_neg hfacts.2.2.2.2.2.1]
    have hsplit := takeWhile_all_append isDigitC (natChars n.toNat) rest
      (natChars_digits _) (restOk_split rest hrest)
    rw [hct, List.cons_append] at hsplit
    simp only [hsplit.1, hsplit.2]
    rw [if_neg (by simp)]
    have : digitsVal (c :: t) = n.toNat := by
      rw [← hct, digitsVal_natChars]
    rw [this]
    have : ((n.toNat : Int)) = n := by omega
    rw [this]

theorem jfuel_pos : ∀ v : JVal, 1 ≤ jfuel v
  | JVal.jnull => le_refl _
  | JVal.jbool _ => le_refl _
  | JVal.jnum _ => le_refl _
  | JVal.jstr _ => le_refl _
  | JVal.jarr xs => by rw [jfuel]; omega
  | JVal.jobj kvs => by rw [jfuel]; omega

theorem parseVal_non_special (f : Nat) (c : Char) (X : List Char)
    (hws : isWsJ c = false) (hq : c ≠ qchar) (hbk : c ≠ '[')
    (hbr : c ≠ obrace) (hn : ('n' == c) = false) (ht : ('t' == c) = false)
    (hf : ('f' == c) = false) :
    parseVal (f + 1) (c :: X) = parseNum (c :: X) := by
  rw [parseVal.eq_def]
  simp only []
  rw [skipWs_cons c X hws]
  simp only []
  rw [if_neg hq, if_neg hbk, if_neg hbr]
  have h1 : startsWithL (cs "null") (c :: X) = false := by
    show (('n' == c) && startsWithL (cs "ull") X) = false
    rw [hn]
    rfl
  have h2 : startsWithL (cs "true") (c :: X) = false := by
    show (('t' == c) && startsWithL (cs "rue") X) = false
    rw [ht]
    rfl
  have h3 : startsWithL (cs "false") (c :: X) = false := by
    show (('f' == c) && startsWithL (cs "alse") X) = false
    rw [hf]
    rfl
  rw [if_neg (by simp [h1]), if_neg (by simp [h2]), if_neg (by simp [h3])]

theorem parseVal_at_str (f : Nat) (X : List Char) :
    parseVal (f + 1) (qchar :: X) =
      (parseStrBody X).map (fun pr => (JVal.jstr pr.1, pr.2)) := by
  rw [parseVal.eq_def]
  simp only []
  rw [skipWs_cons _ _ (by decide)]
  simp only []
  simp

theorem parseVal_at_arr (f : Nat) (X : List Char) (c2 : Char)
    (r2 : List Char) (hsw : skipWs X = c2 :: r2) (hne : c2 ≠ ']') :
    parseVal (f + 1) ('[' :: X) =
      (parseElems f X).map (fun pr => (JVal.jarr pr.1, pr.2)) := by
  rw [parseVal.eq_def]
  simp only []
  rw [skipWs_cons _ _ (by decide)]
  simp only []
  rw [if_neg (by decide)]
  simp only [if_true]
  rw [hsw]
  simp only []
  rw [if_neg hne]

theorem parseVal_at_obj (f : Nat) (X : List Char) (c2 : Char)
    (r2 : List Char) (hsw : skipWs X = c2 :: r2) (hne : c2 ≠ cbrace) :
    parseVal (f + 1) (obrace :: X) =
      (parseMems f X).map (fun pr => (JVal.jobj pr.1, pr.2)) := by
  rw [parseVal.eq_def]
  simp only []
  rw [skipWs_cons _ _ (by decide)]
  simp only []
  rw [if_neg (by decide), if_neg (by decide)]
  simp only [if_true]
  rw [hsw]
  simp only []
  rw [if_neg hne]

theorem printArr_cons (x : JVal) (xs : List JVal) :
    ∃ s, printArr (x :: xs) = printJ x ++ s := by
  cases xs with
  | nil => exact ⟨[], (List.append_nil _).symm⟩
  | cons y r => exact ⟨',' :: printArr (y :: r), rfl⟩

theorem printObj_cons (m : List Char × JVal)
    (r : List (List Char × JVal)) :
    ∃ s, printObj (m :: r) = qchar :: s := by
  obtain ⟨k, v⟩ := m
  cases r with
  | nil => exact ⟨escStr k ++ qchar :: ':' :: printJ v, rfl⟩
  | cons m2 r2 =>
      exact ⟨(escStr k ++ qchar :: ':' :: printJ v) ++
        ',' :: printObj (m2 :: r2), rfl⟩

theorem printJ_shape : ∀ v : JVal,
    ∃ c t, printJ v = c :: t ∧ isWsJ c = false ∧ c ≠ ']'
  | JVal.jnull => ⟨'n', cs "ull", rfl, by decide, by decide⟩
  | JVal.jbool true => ⟨'t', cs "rue", rfl, by decide, by decide⟩
  | JVal.jbool false => ⟨'f', cs "alse", rfl, by decide, by decide⟩
  | JVal.jnum n => by
      by_cases hn : n < 0
      · refine ⟨'-', natChars n.natAbs, ?_, by decide, by decide⟩
        show intChars n = _
        rw [intChars, if_pos hn]
      · obtain ⟨c, t, hct⟩ :=
          List.exists_cons_of_ne_nil (natChars_ne_nil n.toNat)
        have hdc : isDigitC c = true := by
          have := natChars_digits n.toNat
          rw [hct, List.all_cons, Bool.and_eq_true] at this
          exact this.1
        have hfacts := isDigitC_facts c hdc
        refine ⟨c, t, ?_, hfacts.1, hfacts.2.1⟩
        show intChars n = _
        rw [intChars, if_neg hn, hct]
  | JVal.jstr s => ⟨qchar, escStr s ++ [qchar], rfl, by decide, by decide⟩
  | JVal.jarr xs => ⟨'[', printArr xs ++ [']'], rfl, by decide, by decide⟩
  | JVal.jobj kvs =>
      ⟨obrace, printObj kvs ++ [cbrace], rfl, by decide, by decide⟩

mutual

theorem parse_print : ∀ (v : JVal) (fl : Nat), jfuel v ≤ fl → wfJ v = true →
    ∀ rest : List Char, restOkB rest = true →
    parseVal fl (printJ v ++ rest) = some (v, rest)
  | JVal.jnull, fl, hfl, _, rest, _ => by
      obtain ⟨f, rfl⟩ : ∃ f, fl = f + 1 :=
        ⟨fl - 1, by have := jfuel_pos JVal.jnull; omega⟩
      rfl
  | JVal.jbool true, fl, hfl, _, rest, _ => by
      obtain ⟨f, rfl⟩ : ∃ f, fl = f + 1 :=
        ⟨fl - 1, by have := jfuel_pos (JVal.jbool true); omega⟩
      rfl
  | JVal.jbool false, fl, hfl, _, rest, _ => by
      obtain ⟨f, rfl⟩ : ∃ f, fl = f + 1 :=
        ⟨fl - 1, by have := jfuel_pos (JVal.jbool false); omega⟩
      rfl
  | JVal.jnum n, fl, hfl, _, rest, hrest => by
      obtain ⟨f, rfl⟩ : ∃ f, fl = f + 1 :=
        ⟨fl - 1, by have := jfuel_pos (JVal.jnum n); omega⟩
      show parseVal (f + 1) (intChars n ++ rest) = some (JVal.jnum n, rest)
      by_cases hn : n < 0
      · rw [intChars, if_pos hn, List.cons_append]
        rw [parseVal_non_special f '-' _ (by decide) (by decide) (by decide)
          (by decide) (by decide) (by decide) (by decide)]
        have hnum := parseNum_print n rest hrest
        rw [intChars, if_pos hn, List.cons_append] at hnum
        exact hnum
      · obtain ⟨c, t, hct⟩ :=
          List.exists_cons_of_ne_nil (natChars_ne_nil n.toNat)
        have hdc : isDigitC c = true := by
          have := natChars_digits n.toNat
          rw [hct, List.all_cons, Bool.and_eq_true] at this
          exact this.1
        have hfa := isDigitC_facts c hdc
        rw [intChars, if_neg hn, hct, List.cons_append]
        rw [parseVal_non_special f c _ hfa.1 hfa.2.2.1 hfa.2.2.2.1
          hfa.2.2.2.2.1 hfa.2.2.2.2.2.2.1 hfa.2.2.2.2.2.2.2.1
          hfa.2.2.2.2.2.2.2.2]
        have hnum := parseNum_print n rest hrest
        rw [intChars, if_neg hn, hct, List.cons_append] at hnum
        exact hnum
  | JVal.jstr s, fl, hfl, hwf, rest, _ => by
      obtain ⟨f, rfl⟩ : ∃ f, fl = f + 1 :=
        ⟨fl - 1, by have := jfuel_pos (JVal.jstr s); omega⟩
      show parseVal (f + 1) (qchar :: ((escStr s ++ [qchar]) ++ rest)) =
        some (JVal.jstr s, rest)
      rw [parseVal_at_str]
      have hresh : (escStr s ++ [qchar]) ++ rest =
          escStr s ++ (qchar :: rest) := by simp
      rw [hresh]
      have hall : s.all okChar = true := by simpa [wfJ] using hwf
      rw [escStr_id s hall]
      rw [parseStrBody_print s rest hall]
      rfl
  | JVal.jarr [], fl, hfl, _, rest, _ => by
      obtain ⟨f, rfl⟩ : ∃ f, fl = f + 1 :=
        ⟨fl - 1, by have := jfuel_pos (JVal.jarr []); omega⟩
      rfl
  | JVal.jarr (x :: xs), fl, hfl, hwf, rest, _ => by
      obtain ⟨f, rfl⟩ : ∃ f, fl = f + 1 :=
        ⟨fl - 1, by have := jfuel_pos (JVal.jarr (x :: xs)); omega⟩
      obtain ⟨tail, hdecomp⟩ := printArr_cons x xs
      obtain ⟨c0, t0, hshape, hws0, hne0⟩ := printJ_shape x
      show parseVal (f + 1)
        ('[' :: ((printArr (x :: xs) ++ [']']) ++ rest)) = _
      have hX2 : (printArr (x :: xs) ++ [']']) ++ rest =
          printArr (x :: xs) ++ (']' :: rest) := by simp
      have hu : (printArr (x :: xs) ++ [']']) ++ rest =
          c0 :: (t0 ++ tail ++ (']' :: rest)) := by
        rw [hX2, hdecomp, hshape]
        simp
      have hsw : skipWs ((printArr (x :: xs) ++ [']']) ++ rest) =
          c0 :: (t0 ++ tail ++ (']' :: rest)) := by
        rw [hu]
        exact skipWs_cons _ _ hws0
      rw [parseVal_at_arr f _ c0 _ hsw hne0]
      rw [hX2]
      have hwfa : wfArr (x :: xs) = true := by simpa [wfJ] using hwf
      rw [parseElems_print (x :: xs) f (by simp)
        (by rw [jfuel] at hfl; omega) hwfa rest]
      rfl
  | JVal.jobj [], fl, hfl, _, rest, _ => by
      obtain ⟨f, rfl⟩ : ∃ f, fl = f + 1 :=
        ⟨fl - 1, by have := jfuel_pos (JVal.jobj []); omega⟩
      rfl
  | JVal.jobj (m :: kvs), fl, hfl, hwf, rest, _ => by
      obtain ⟨f, rfl⟩ : ∃ f, fl = f + 1 :=
        ⟨fl - 1, by have := jfuel_pos (JVal.jobj (m :: kvs)); omega⟩
      obtain ⟨tail, hdecomp⟩ := printObj_cons m kvs
      show parseVal (f + 1)
        (obrace :: ((printObj (m :: kvs) ++ [cbrace]) ++ rest)) = _
      have hX2 : (printObj (m :: kvs) ++ [cbrace]) ++ rest =
          printObj (m :: kvs) ++ (cbrace :: rest) := by simp
      have hu : (printObj (m :: kvs) ++ [cbrace]) ++ rest =
          qchar :: (tail ++ (cbrace :: rest)) := by
        rw [hX2, hdecomp]
        simp
      have hsw : skipWs ((printObj (m :: kvs) ++ [cbrace]) ++ rest) =
          qchar :: (tail ++ (cbrace :: rest)) := by
        rw [hu]
        exact skipWs_cons _ _ (by decide)
      rw [parseVal_at_obj f _ qchar _ hsw (by decide)]
      rw [hX2]
      have hwfm : wfMems (m :: kvs) = true := by simpa [wfJ] using hwf
      rw [parseMems_print (m :: kvs) f (by simp)
        (by rw [jfuel] at hfl; omega) hwfm rest]
      rfl
termination_by v _ _ _ _ _ => sizeOf v

theorem parseElems_print : ∀ (xs : List JVal) (f : Nat), xs ≠ [] →
    jfuelElems xs ≤ f → wfArr xs = true → ∀ rest : List Char,
    parseElems f (printArr xs ++ ']' :: rest) = some (xs, rest)
  | [], _, hne, _, _, _ => absurd rfl hne
  | [x], f, _, hfl, hwf, rest => by
      rw [jfuelElems, jfuelElems] at hfl
      obtain ⟨f', rfl⟩ : ∃ f', f = f' + 1 := ⟨f - 1, by omega⟩
      have hwx : wfJ x = true := by
        rw [wfArr, Bool.and_eq_true] at hwf
        exact hwf.1
      have hx := parse_print x f' (by omega) hwx (']' :: rest) rfl
      show parseElems (f' + 1) (printJ x ++ (']' :: rest)) = _
      rw [parseElems.eq_def]
      simp only []
      rw [hx]
      rfl
  | x :: y :: r, f, _, hfl, hwf, rest => by
      rw [jfuelElems] at hfl
      obtain ⟨f', rfl⟩ : ∃ f', f = f' + 1 := ⟨f - 1, by omega⟩
      rw [wfArr, Bool.and_eq_true] at hwf
      have hx := parse_print x f' (by omega) hwf.1
        (',' :: (printArr (y :: r) ++ ']' :: rest)) rfl
      have hre : printArr (x :: y :: r) ++ ']' :: rest =
          printJ x ++ (',' :: (printArr (y :: r) ++ ']' :: rest)) := by
        show (printJ x ++ ',' :: printArr (y :: r)) ++ ']' :: rest = _
        rw [List.append_assoc]
        rfl
      rw [hre]
      rw [parseElems.eq_def]
      simp only []
      rw [hx]
      simp only []
      rw [skipWs_cons _ _ (by decide)]
      simp only []
      rw [parseElems_print (y :: r) f' (by simp) (by omega) hwf.2 rest]
      rfl
termination_by xs _ _ _ _ _ => sizeOf xs

theorem parseMems_print : ∀ (kvs : List (List Char × JVal)) (f : Nat),
    kvs ≠ [] → jfuelMems kvs ≤ f → wfMems kvs = true →
    ∀ rest : List Char,
    parseMems f (printObj kvs ++ cbrace :: rest) = some (kvs, rest)
  | [], _, hne, _, _, _ => absurd rfl hne
  | [(k, v)], f, _, hfl, hwf, rest => by
      rw [jfuelMems, jfuelMems] at hfl
      obtain ⟨f', rfl⟩ : ∃ f', f = f' + 1 := ⟨f - 1, by omega⟩
      rw [wfMems, Bool.and_eq_true, Bool.and_eq_true] at hwf
      have hv := parse_print v f' (by omega) hwf.1.2 (cbrace :: rest) rfl
      have hre : printObj [(k, v)] ++ cbrace :: rest =
          qchar :: (escStr k ++
            (qchar :: (':' :: (printJ v ++ cbrace :: rest)))) := by
        show (qchar :: (escStr k ++ (qchar :: ':' :: printJ v))) ++
          cbrace :: rest = _
        rw [List.cons_append, List.append_assoc]
        rfl
      rw [hre]
      rw [parseMems.eq_def]
      simp only []
      rw [skipWs_cons _ _ (by decide)]
      simp only [if_true]
      rw [escStr_id k hwf.1.1]
      rw [parseStrBody_print k _ hwf.1.1]
      simp only []
      rw [skipWs_cons _ _ (by decide)]
      simp only []
      rw [hv]
      simp only []
      rw [skipWs_cons _ _ (by decide)]
      rfl
  | (k, v) :: m :: r, f, _, hfl, hwf, rest => by
      rw [jfuelMems] at hfl
      obtain ⟨f', rfl⟩ : ∃ f', f = f' + 1 := ⟨f - 1, by omega⟩
      rw [wfMems, Bool.and_eq_true, Bool.and_eq_true] at hwf
      have hv := parse_print v f' (by omega) hwf.1.2
        (',' :: (printObj (m :: r) ++ cbrace :: rest)) rfl
      have hre : printObj ((k, v) :: m :: r) ++ cbrace :: rest =
          qchar :: (escStr k ++ (qchar :: (':' :: (printJ v ++
            (',' :: (printObj (m :: r) ++ cbrace :: rest)))))) := by
        show ((qchar :: (escStr k ++ (qchar :: ':' :: printJ v))) ++
          ',' :: printObj (m :: r)) ++ cbrace :: rest = _
        simp [List.cons_append, List.append_assoc]
      rw [hre]
      rw [parseMems.eq_def]
      simp only []
      rw [skipWs_cons _ _ (by decide)]
      simp only [if_true]
      rw [escStr_id k hwf.1.1]
      rw [parseStrBody_print k _ hwf.1.1]
      simp only []
      rw [skipWs_cons _ _ (by decide)]
      simp only []
      rw [hv]
      simp only []
      rw [skipWs_cons _ _ (by decide)]
      simp only []
      rw [parseMems_print (m :: r) f' (by simp) (by omega) hwf.2 rest]
      rfl
termination_by kvs _ _ _ _ _ => sizeOf kvs

end

mutual

theorem jfuel_le_print : ∀ v : JVal, jfuel v ≤ (printJ v).length
  | JVal.jnull => by decide
  | JVal.jbool true => by decide
  | JVal.jbool false => by decide
  | JVal.jnum n => by
      rw [jfuel]
      have hne : printJ (JVal.jnum n) ≠ [] := by
        show intChars n ≠ []
        rw [intChars]
        split
        · simp
        · exact natChars_ne_nil _
      have := List.length_pos.mpr hne
      omega
  | JVal.jstr s => by
      rw [jfuel]
      simp [printJ]
  | JVal.jarr xs => by
      rw [jfuel]
      have h := jfuelElems_le_print xs
      show 1 + jfuelElems xs ≤ ('[' :: (printArr xs ++ [']'])).length
      simp only [List.length_cons, List.length_append]
      simp at h ⊢
      omega
  | JVal.jobj kvs => by
      rw [jfuel]
      have h := jfuelMems_le_print kvs
      show 1 + jfuelMems kvs ≤ (obrace :: (printObj kvs ++ [cbrace])).length
      simp only [List.length_cons, List.length_append]
      simp at h ⊢
      omega
termination_by v => sizeOf v

theorem jfuelElems_le_print : ∀ xs : List JVal,
    jfuelElems xs ≤ (printArr xs).length + 1
  | [] => by rw [jfuelElems]; simp
  | [x] => by
      rw [jfuelElems, jfuelElems]
      have := jfuel_le_print x
      show 1 + jfuel x + 0 ≤ (printJ x).length + 1
      omega
  | x :: y :: r => by
      rw [jfuelElems]
      have h1 := jfuel_le_print x
      have h2 := jfuelElems_le_print (y :: r)
      show 1 + jfuel x + jfuelElems (y :: r) ≤
        (printJ x ++ ',' :: printArr (y :: r)).length + 1
      simp only [List.length_append, List.length_cons]
      omega
termination_by xs => sizeOf xs

theorem jfuelMems_le_print : ∀ kvs : List (List Char × JVal),
    jfuelMems kvs ≤ (printObj kvs).length + 1
  | [] => by rw [jfuelMems]; simp
  | [(k, v)] => by
      rw [jfuelMems, jfuelMems]
      have := jfuel_le_print v
      show 1 + jfuel v + 0 ≤
        (qchar :: (escStr k ++ qchar :: ':' :: printJ v)).length + 1
      simp only [List.length_cons, List.length_append]
      omega
  | (k, v) :: m :: r => by
      rw [jfuelMems]
      have h1 := jfuel_le_print v
      have h2 := jfuelMems_le_print (m :: r)
      show 1 + jfuel v + jfuelMems (m :: r) ≤
        ((qchar :: (escStr k ++ qchar :: ':' :: printJ v)) ++
          ',' :: printObj (m :: r)).length + 1
      simp only [List.length_cons, List.length_append]
      omega
termination_by kvs => sizeOf kvs

end

theorem jsonParse_print (v : JVal) (hwf : wfJ v = true) :
    jsonParse (printJ v) = some v := by
  rw [jsonParse]
  have h := parse_print v ((printJ v).length + 1)
    (by have := jfuel_le_print v; omega) hwf [] rfl
  rw [List.append_nil] at h
  rw [h]
  rfl

/-- Claim C9: persisting the knowledge base (`save_kb` stamps
`last_updated` and dumps the document) and reparsing the written text
(`json.load`, as `_load_kb` does on an existing file) recovers exactly the
stamped document: same providers, fields, and ordered strategy records
with all their entries — the only field that may differ from the
pre-save state is the top-level `last_updated`.  Stated for documents
whose strings are plain printable ASCII (no quotes / backslashes /
control characters), which covers every value the system itself
writes. -/
theorem c9_save_load_roundtrip (env : Env) (kb : KB)
    (hwf : wfKB { kb with last_updated := env.now } = true) :
    loadFromText (saveText env kb) =
      some (kbToJson { kb with last_updated := env.now }) ∧
    ({ kb with last_updated := env.now }).providers = kb.providers ∧
    ({ kb with last_updated := env.now }).version = kb.version := by
  exact ⟨jsonParse_print _ hwf, rfl, rfl⟩

/-- Witness for C9 on a concrete three-record knowledge base. -/
theorem c9_save_load_roundtrip_witness :
    loadFromText (saveText (envAlways true) kbThree) =
      some (kbToJson { kbThree with last_updated := cs "t1" }) := by
  have h := c9_save_load_roundtrip (envAlways true) kbThree (by decide)
  exact h.1

theorem subseg_trans {m t s : List Char} (h1 : SubSeg m t)
    (h2 : SubSeg t s) : SubSeg m s := by
  obtain ⟨a, b, rfl⟩ := h1
  obtain ⟨a2, b2, rfl⟩ := h2
  exact ⟨a2 ++ a, b ++ b2, by simp [List.append_assoc]⟩

theorem subseg_cons {m t : List Char} (c : Char) (h : SubSeg m t) :
    SubSeg m (c :: t) := by
  obtain ⟨a, b, rfl⟩ := h
  exact ⟨c :: a, b, rfl⟩

theorem startsWithL_drop : ∀ (p l : List Char),
    startsWithL p l = true → l = p ++ l.drop p.length
  | [], l, _ => by simp
  | a :: as, [], h => by rw [startsWithL] at h; exact absurd h (by simp)
  | a :: as, b :: bs, h => by
      rw [startsWithL, Bool.and_eq_true] at h
      have hab : a = b := by
        have := h.1
        simpa using this
      subst hab
      exact congrArg (List.cons a) (startsWithL_drop as bs h.2)

theorem takeTo_eq (c0 : Char) : ∀ (l t r : List Char),
    takeTo c0 l = some (t, r) → l = t ++ c0 :: r
  | [], t, r, h => by rw [takeTo] at h; exact absurd h (by simp)
  | x :: rest, t, r, h => by
      rw [takeTo] at h
      split at h
      · rename_i hx
        simp only [Option.some.injEq, Prod.mk.injEq] at h
        obtain ⟨rfl, rfl⟩ := h
        simp [hx]
      · cases hrec : takeTo c0 rest with
        | none => rw [hrec] at h; simp at h
        | some pr =>
            rw [hrec] at h
            simp only [Option.map_some', Option.some.injEq,
              Prod.mk.injEq] at h
            obtain ⟨rfl, rfl⟩ := h
            have := takeTo_eq c0 rest pr.1 pr.2 (by rw [hrec])
            rw [List.cons_append]
            exact congrArg (List.cons x) this

theorem takeToBrace_eq : ∀ (l t : List Char) (b : Char) (r : List Char),
    takeToBrace l = some (t, b, r) → l = t ++ b :: r
  | [], t, b, r, h => by rw [takeToBrace] at h; exact absurd h (by simp)
  | x :: rest, t, b, r, h => by
      rw [takeToBrace] at h
      split at h
      · simp only [Option.some.injEq, Prod.mk.injEq] at h
        obtain ⟨rfl, rfl, rfl⟩ := h
        simp
      · cases hrec : takeToBrace rest with
        | none => rw [hrec] at h; simp at h
        | some pr =>
            rw [hrec] at h
            simp only [Option.map_some', Option.some.injEq,
              Prod.mk.injEq] at h
            obtain ⟨rfl, rfl, rfl⟩ := h
            have := takeToBrace_eq rest pr.1 pr.2.1 pr.2.2 (by rw [hrec])
            rw [List.cons_append]
            exact congrArg (List.cons x) this

theorem lazyClose_eq : ∀ (fuel : Nat) (l inner after : List Char),
    lazyClose fuel l = some (inner, after) →
    ∃ pre, l = inner ++ cbrace :: (pre ++ after)
  | 0, l, inner, after, h => by rw [lazyClose] at h; exact absurd h (by simp)
  | fuel + 1, [], inner, after, h => by
      rw [lazyClose] at h; exact absurd h (by simp)
  | fuel + 1, c :: rest, inner, after, h => by
      rw [lazyClose] at h
      split at h
      · rename_i hcond
        rw [Bool.and_eq_true] at hcond
        have hc : c = cbrace := of_decide_eq_true hcond.1
        simp only [Option.some.injEq, Prod.mk.injEq] at h
        obtain ⟨rfl, rfl⟩ := h
        refine ⟨rest.takeWhile isWsJ ++ (rest.dropWhile isWsJ).take 3, ?_⟩
        subst hc
        have h1 : rest.takeWhile isWsJ ++ rest.dropWhile isWsJ = rest :=
          List.takeWhile_append_dropWhile isWsJ rest
        have h2 : (rest.dropWhile isWsJ).take 3 ++
            (rest.dropWhile isWsJ).drop 3 = rest.dropWhile isWsJ :=
          List.take_append_drop 3 _
        simp only [List.nil_append]
        rw [List.append_assoc, h2, h1]
      · cases hrec : lazyClose fuel rest with
        | none => rw [hrec] at h; simp at h
        | some pr =>
            rw [hrec] at h
            simp only [Option.map_some', Option.some.injEq,
              Prod.mk.injEq] at h
            obtain ⟨rfl, rfl⟩ := h
            obtain ⟨pre, hpre⟩ :=
              lazyClose_eq fuel rest pr.1 pr.2 (by rw [hrec])
            exact ⟨pre, by rw [List.cons_append, ← hpre]⟩

theorem subseg_mem_segsOf {s m : List Char} (h : SubSeg m s) :
    m ∈ segsOf s := by
  obtain ⟨a, b, rfl⟩ := h
  have hlen : (a ++ m ++ b).length = a.length + m.length + b.length := by
    simp [List.length_append]
    omega
  rw [segsOf, List.mem_flatMap]
  refine ⟨a.length, ?_, ?_⟩
  · rw [List.mem_range]; omega
  · rw [List.mem_map]
    refine ⟨m.length, ?_, ?_⟩
    · rw [List.mem_range]; omega
    · rw [List.append_assoc, List.drop_left, List.take_left]

theorem subseg_of_mem_segsOf {s m : List Char} (h : m ∈ segsOf s) :
    SubSeg m s := by
  rw [segsOf, List.mem_flatMap] at h
  obtain ⟨i, _, hm⟩ := h
  rw [List.mem_map] at hm
  obtain ⟨n, _, rfl⟩ := hm
  refine ⟨s.take i, (s.drop i).drop n, ?_⟩
  rw [List.append_assoc, List.take_append_drop, List.take_append_drop]

theorem pyStrip_subseg (l : List Char) : SubSeg (pyStrip l) l := by
  refine ⟨l.takeWhile isWsJ,
    ((l.dropWhile isWsJ).reverse.takeWhile isWsJ).reverse, ?_⟩
  have hd : l.dropWhile isWsJ =
      pyStrip l ++ ((l.dropWhile isWsJ).reverse.takeWhile isWsJ).reverse := by
    rw [pyStrip]
    conv_lhs => rw [← List.reverse_reverse (l.dropWhile isWsJ),
      ← List.takeWhile_append_dropWhile isWsJ (l.dropWhile isWsJ).reverse]
    rw [List.reverse_append]
  calc l = l.takeWhile isWsJ ++ l.dropWhile isWsJ :=
        (List.takeWhile_append_dropWhile isWsJ l).symm
    _ = l.takeWhile isWsJ ++ (pyStrip l ++
        ((l.dropWhile isWsJ).reverse.takeWhile isWsJ).reverse) := by
        rw [← hd]
    _ = _ := by rw [List.append_assoc]

theorem parseVal_obrace (f : Nat) (t : List Char) (v : JVal)
    (r : List Char) (h : parseVal f (obrace :: t) = some (v, r)) :
    ∃ kvs, v = JVal.jobj kvs := by
  cases f with
  | zero => rw [parseVal.eq_def] at h; exact absurd h (by simp)
  | succ f0 =>
      rw [parseVal.eq_def] at h
      simp only [] at h
      rw [skipWs_cons _ _ (by decide)] at h
      simp only [] at h
      rw [if_neg (by decide), if_neg (by decide)] at h
      simp only [if_true] at h
      cases hsw : skipWs t with
      | nil => rw [hsw] at h; exact absurd h (by simp)
      | cons c2 r2 =>
          rw [hsw] at h
          simp only [] at h
          by_cases hc2 : c2 = cbrace
          · rw [if_pos hc2] at h
            simp only [Option.some.injEq, Prod.mk.injEq] at h
            exact ⟨[], h.1.symm⟩
          · rw [if_neg hc2] at h
            cases hm : parseMems f0 t with
            | none => rw [hm] at h; exact absurd h (by simp)
            | some pr =>
                rw [hm] at h
                simp only [Option.map_some', Option.some.injEq,
                  Prod.mk.injEq] at h
                exact ⟨pr.1, h.1.symm⟩

theorem jsonParse_obrace (t : List Char) (v : JVal)
    (h : jsonParse (obrace :: t) = some v) : ∃ kvs, v = JVal.jobj kvs := by
  rw [jsonParse] at h
  cases hp : parseVal ((obrace :: t).length + 1) (obrace :: t) with
  | none => rw [hp] at h; exact absurd h (by simp)
  | some pr =>
      rw [hp] at h
      obtain ⟨kvs, hkvs⟩ := parseVal_obrace _ t pr.1 pr.2 (by rw [hp])
      simp only [] at h
      split at h
      · simp only [Option.some.injEq] at h
        exact ⟨kvs, by rw [← h, hkvs]⟩
      · exact absurd h (by simp)

theorem hasStrategyObjSub_of (s m : List Char)
    (kvs : List (List Char × JVal)) (hseg : SubSeg m s)
    (hp : jsonParse m = some (JVal.jobj kvs))
    (hk : (kvs.lookup (cs "strategy")).isSome = true) :
    hasStrategyObjSub s = true := by
  rw [hasStrategyObjSub, List.any_eq_true]
  refine ⟨m, subseg_mem_segsOf hseg, ?_⟩
  rw [hp]
  exact hk

theorem hasStrategyObjSub_strip (l : List Char)
    (h : hasStrategyObjSub l = false) :
    hasStrategyObjSub (pyStrip l) = false := by
  by_contra hc
  rw [Bool.not_eq_false, hasStrategyObjSub, List.any_eq_true] at hc
  obtain ⟨m, hm, hprop⟩ := hc
  have hseg : SubSeg m l :=
    subseg_trans (subseg_of_mem_segsOf hm) (pyStrip_subseg l)
  cases hp : jsonParse m with
  | none => rw [hp] at hprop; simp at hprop
  | some v =>
      cases v with
      | jobj kvs =>
          rw [hp] at hprop
          have := hasStrategyObjSub_of l m kvs hseg hp hprop
          rw [this] at h
          exact absurd h (by simp)
      | jnull => rw [hp] at hprop; simp at hprop
      | jbool b => rw [hp] at hprop; simp at hprop
      | jnum n => rw [hp] at hprop; simp at hprop
      | jstr s2 => rw [hp] at hprop; simp at hprop
      | jarr xs => rw [hp] at hprop; simp at hprop

theorem p1Aux_mem : ∀ (fuel : Nat) (l m : List Char), m ∈ p1Aux fuel l →
    (∃ inner, m = obrace :: inner ++ [cbrace]) ∧ SubSeg m l
  | 0, l, m, h => by rw [p1Aux] at h; exact absurd h (by simp)
  | fuel + 1, [], m, h => by rw [p1Aux] at h; exact absurd h (by simp)
  | fuel + 1, c :: rest, m, h => by
      rw [p1Aux] at h
      split at h
      · rename_i hc
        cases htb : takeToBrace rest with
        | none =>
            rw [htb] at h
            obtain ⟨hsh, hseg⟩ := p1Aux_mem fuel rest m h
            exact ⟨hsh, subseg_cons c hseg⟩
        | some tr =>
            obtain ⟨inner, b, rest2⟩ := tr
            rw [htb] at h
            simp only [] at h
            have hrest : rest = inner ++ b :: rest2 :=
              takeToBrace_eq rest inner b rest2 htb
            split at h
            · rename_i hg
              rw [Bool.and_eq_true] at hg
              have hb : b = cbrace := of_decide_eq_true hg.1
              rw [List.mem_cons] at h
              cases h with
              | inl heq =>
                  refine ⟨⟨inner, heq⟩, ⟨[], rest2, ?_⟩⟩
                  rw [heq, hrest, hc, hb]
                  simp
              | inr hmem =>
                  obtain ⟨hsh, hseg⟩ := p1Aux_mem fuel rest2 m hmem
                  refine ⟨hsh, subseg_trans hseg ⟨c :: inner ++ [b], [], ?_⟩⟩
                  rw [hrest]
                  simp
            · obtain ⟨hsh, hseg⟩ := p1Aux_mem fuel rest m h
              exact ⟨hsh, subseg_cons c hseg⟩
      · obtain ⟨hsh, hseg⟩ := p1Aux_mem fuel rest m h
        exact ⟨hsh, subseg_cons c hseg⟩

theorem p2Aux_mem : ∀ (fuel : Nat) (l m : List Char), m ∈ p2Aux fuel l →
    (∃ inner, m = obrace :: inner ++ [cbrace]) ∧ SubSeg m l
  | 0, l, m, h => by rw [p2Aux] at h; exact absurd h (by simp)
  | fuel + 1, [], m, h => by rw [p2Aux] at h; exact absurd h (by simp)
  | fuel + 1, c :: rest, m, h => by
      rw [p2Aux] at h
      split at h
      · rename_i hc
        cases htk : takeTo cbrace rest with
        | none =>
            rw [htk] at h
            obtain ⟨hsh, hseg⟩ := p2Aux_mem fuel rest m h
            exact ⟨hsh, subseg_cons c hseg⟩
        | some pr =>
            rw [htk] at h
            simp only [] at h
            have hrest : rest = pr.1 ++ cbrace :: pr.2 :=
              takeTo_eq cbrace rest pr.1 pr.2 htk
            rw [List.mem_cons] at h
            cases h with
            | inl heq =>
                refine ⟨⟨pr.1, heq⟩, ⟨[], pr.2, ?_⟩⟩
                rw [heq, hrest, hc]
                simp
            | inr hmem =>
                obtain ⟨hsh, hseg⟩ := p2Aux_mem fuel pr.2 m hmem
                refine ⟨hsh, subseg_trans hseg ⟨c :: pr.1 ++ [cbrace], [], ?_⟩⟩
                rw [hrest]
                simp
      · obtain ⟨hsh, hseg⟩ := p2Aux_mem fuel rest m h
        exact ⟨hsh, subseg_cons c hseg⟩

theorem fencedAux_mem : ∀ (fence : List Char) (fuel : Nat) (l m : List Char),
    m ∈ fencedAux fence fuel l →
    (∃ inner, m = obrace :: inner ++ [cbrace]) ∧ SubSeg m l
  | fence, 0, l, m, h => by rw [fencedAux] at h; exact absurd h (by simp)
  | fence, fuel + 1, [], m, h => by
      rw [fencedAux] at h; exact absurd h (by simp)
  | fence, fuel + 1, c :: t, m, h => by
      rw [fencedAux] at h
      split at h
      · rename_i hsw
        have hfence : (c :: t) = fence ++ (c :: t).drop fence.length :=
          startsWithL_drop fence (c :: t) hsw
        cases hdw : ((c :: t).drop fence.length).dropWhile isWsJ with
        | nil =>
            rw [hdw] at h
            obtain ⟨hsh, hseg⟩ := fencedAux_mem fence fuel t m h
            exact ⟨hsh, subseg_cons c hseg⟩
        | cons x r2 =>
            rw [hdw] at h
            simp only [] at h
            split at h
            · rename_i hx
              cases hlc : lazyClose (r2.length + 1) r2 with
              | none =>
                  rw [hlc] at h
                  obtain ⟨hsh, hseg⟩ := fencedAux_mem fence fuel t m h
                  exact ⟨hsh, subseg_cons c hseg⟩
              | some pr =>
                  rw [hlc] at h
                  simp only [] at h
                  obtain ⟨pre, hpre⟩ :=
                    lazyClose_eq (r2.length + 1) r2 pr.1 pr.2 hlc
                  have hdrop : (c :: t).drop fence.length =
                      ((c :: t).drop fence.length).takeWhile isWsJ ++
                        (x :: r2) := by
                    rw [← hdw,
                      List.takeWhile_append_dropWhile isWsJ
                        ((c :: t).drop fence.length)]
                  have hall : c :: t =
                      (fence ++
                        ((c :: t).drop fence.length).takeWhile isWsJ) ++
                      (obrace :: pr.1 ++ [cbrace]) ++ (pre ++ pr.2) := by
                    conv_lhs => rw [hfence, hdrop, hpre]
                    rw [hx]
                    simp
                  rw [List.mem_cons] at h
                  cases h with
                  | inl heq =>
                      refine ⟨⟨pr.1, heq⟩, ⟨fence ++
                        ((c :: t).drop fence.length).takeWhile isWsJ,
                        pre ++ pr.2, ?_⟩⟩
                      rw [heq]
                      exact hall
                  | inr hmem =>
                      obtain ⟨hsh, hseg⟩ := fencedAux_mem fence fuel pr.2 m hmem
                      refine ⟨hsh, subseg_trans hseg ⟨(fence ++
                        ((c :: t).drop fence.length).takeWhile isWsJ) ++
                        (obrace :: pr.1 ++ [cbrace]) ++ pre, [], ?_⟩⟩
                      rw [List.append_nil]
                      conv_lhs => rw [hall]
                      simp [List.append_assoc]
            · obtain ⟨hsh, hseg⟩ := fencedAux_mem fence fuel t m h
              exact ⟨hsh, subseg_cons c hseg⟩
      · obtain ⟨hsh, hseg⟩ := fencedAux_mem fence fuel t m h
        exact ⟨hsh, subseg_cons c hseg⟩

theorem firstStratHit_none (s : List Char)
    (hno : hasStrategyObjSub s = false) :
    ∀ ms : List (List Char),
      (∀ m ∈ ms, (∃ inner, m = obrace :: inner ++ [cbrace]) ∧ SubSeg m s) →
      firstStratHit ms = none
  | [], _ => rfl
  | m :: rest, hall => by
      obtain ⟨⟨inner, hsh⟩, hseg⟩ := hall m (List.mem_cons_self m rest)
      rw [firstStratHit]
      cases hp : jsonParse m with
      | none =>
          exact firstStratHit_none s hno rest
            (fun x hx => hall x (List.mem_cons_of_mem m hx))
      | some v =>
          obtain ⟨kvs, hkvs⟩ := jsonParse_obrace (inner ++ [cbrace]) v
            (by rw [hsh] at hp; exact hp)
          subst hkvs
          have hsk : stratKeysOk (JVal.jobj kvs) = false := by
            by_contra hcc
            rw [Bool.not_eq_false, stratKeysOk, Bool.and_eq_true] at hcc
            have hk : (kvs.lookup (cs "strategy")).isSome = true := by
              have h1 := hcc.1
              simpa [pyInJ] using h1
            have := hasStrategyObjSub_of s m kvs hseg hp hk
            rw [this] at hno
            exact absurd hno (by simp)
          show (if stratKeysOk (JVal.jobj kvs) = true
              then some (JVal.jobj kvs) else firstStratHit rest) = none
          rw [hsk]
          simp only [Bool.false_eq_true, if_false]
          exact firstStratHit_none s hno rest
            (fun x hx => hall x (List.mem_cons_of_mem m hx))

/-- Claim C4 (amended): a 200 response whose text contains no JSON object
with a `strategy` key yields no candidate and raises no exception,
PROVIDED additionally that the whole stripped text does not itself parse
to a JSON value passing Python's `"strategy" in v and "params" in v`
membership test (a string or list can pass it without being an object),
and setting aside the last-resort text heuristic: when the stripped text
mentions both `input` and `placeholder` (case-insensitively) the function
returns the hard-coded css fallback strategy instead of None. -/
theorem c4_malformed_response (env : Env) (field dom : List Char)
    (failed : List JVal) (body : List Char)
    (hhttp : env.ollamaHTTP = some (200, body))
    (hno : hasStrategyObjSub body = false)
    (hwhole : wholeStratHit (pyStrip body) = false) :
    proposeWithOllama env field dom failed =
      (if containsL (cs "input") (lowerL (pyStrip body)) &&
          containsL (cs "placeholder") (lowerL (pyStrip body)) then
        some ollamaFallbackStrat
      else none) := by
  have hs := hasStrategyObjSub_strip body hno
  have h1 : firstStratHit (p1Matches (pyStrip body)) = none :=
    firstStratHit_none _ hs _
      (fun m hm => p1Aux_mem ((pyStrip body).length + 1) (pyStrip body) m hm)
  have h2 : firstStratHit (p2Matches (pyStrip body)) = none :=
    firstStratHit_none _ hs _
      (fun m hm => p2Aux_mem ((pyStrip body).length + 1) (pyStrip body) m hm)
  have h3 : firstStratHit (p3Matches (pyStrip body)) = none :=
    firstStratHit_none _ hs _
      (fun m hm => fencedAux_mem (cs "```json") ((pyStrip body).length + 1)
        (pyStrip body) m hm)
  have h4 : firstStratHit (p4Matches (pyStrip body)) = none :=
    firstStratHit_none _ hs _
      (fun m hm => fencedAux_mem (cs "```") ((pyStrip body).length + 1)
        (pyStrip body) m hm)
  have hrun : proposeWithOllama env field dom failed =
      extractStrategy (pyStrip body) := by
    unfold proposeWithOllama
    rw [hhttp]
    rfl
  rw [hrun]
  unfold extractStrategy
  rw [h1, h2, h3, h4]
  cases hp : jsonParse (pyStrip body) with
  | none => rw [textFallback]
  | some v =>
      have hv : stratKeysOk v = false := by
        rw [wholeStratHit, hp] at hwhole
        exact hwhole
      show (if stratKeysOk v = true then some v
        else textFallback (pyStrip body)) = _
      rw [hv]
      simp only [Bool.false_eq_true, if_false]
      rw [textFallback]

/-- Witness for C4 on a braceless, heuristic-free 200 response. -/
theorem c4_malformed_response_witness :
    proposeWithOllama
      { envAlways true with ollamaHTTP := some (200, cs "hmm!") }
      (cs "f") (cs "d") [] = none := by
  have h := c4_malformed_response
    { envAlways true with ollamaHTTP := some (200, cs "hmm!") }
    (cs "f") (cs "d") [] (cs "hmm!") rfl (by decide) (by decide)
  rw [h]
  decide

set_option maxRecDepth 40000 in
/-- Counterexample for C4 as stated: a prose response containing no brace
at all — hence no JSON object of any kind, let alone one with a `strategy`
key — still makes `propose_strategy_with_ollama` return the hard-coded css
fallback strategy, because the text mentions `input` and `placeholder`. -/
theorem c4_counterexample :
    hasStrategyObjSub (cs "Use an input with a placeholder attribute.")
      = false ∧
    proposeWithOllama
      { envAlways true with
          ollamaHTTP :=
            some (200, cs "Use an input with a placeholder attribute.") }
      (cs "pickup_input") testDomC5 [] = some ollamaFallbackStrat := by
  constructor
  · decide
  · decide
